import Mathlib

/-!
Verification development for the MIRT training script (`mirt_train_EM.py`).

The numeric core (`L_dL_singleuser`, `L_dL`) is embedded over exact reals.
numpy arrays become `List ℝ` / `List (List ℝ)`; the fancy-indexed in-place
addition `dL[inds, :] += rows` is embedded with numpy's gather-then-scatter
semantics, in which duplicate indices collapse to the last occurrence.
-/

namespace Mirt

/-- Per-learner training state: `correct` is the 0/1 correctness vector
(ints after `astype(int)`), `exercises_ind` the parallel exercise-index
vector, `abilities` the latent ability vector. -/
structure UserState where
  correct : List ℝ
  exercises_ind : List ℕ
  abilities : List ℝ

/-- Modelled from the spec: `mirt_util.sigmoid` is imported from outside this
repository; the spec describes it as the logistic transform of its input. -/
noncomputable def sigmoid (y : ℝ) : ℝ := 1 / (1 + Real.exp (-y))

/-- Dot product of two vectors (`np.dot` of a matrix row with a column). -/
def dot (xs ys : List ℝ) : ℝ := (List.zipWith (fun a b => a * b) xs ys).sum

/-- Predicted correctness values `Z = sigmoid(couplings[exercises_ind, :] . abilities-padded)`
(lines 137-141 of `mirt_train_EM.py`). -/
noncomputable def zList (C : List (List ℝ)) (s : UserState) : List ℝ :=
  (s.exercises_ind.map (fun i => C.getD i [])).map
    (fun row => sigmoid (dot row (s.abilities ++ [1])))

/-- Per-attempt probability of the observed outcome,
`pdata = Zt * Z + (1 - Zt) * (1 - Z)` (line 143). -/
noncomputable def pdataList (C : List (List ℝ)) (s : UserState) : List ℝ :=
  List.zipWith (fun zt z => zt * z + (1 - zt) * (1 - z)) s.correct (zList C s)

/-- Embedding of `L_dL_singleuser` (lines 124-151): returns `(-L, -dL, exercises_ind)`
where `L` is the log-base-2 likelihood and `dL` holds one outer-product row per
attempt (`np.dot(dLdY, abilities.T)`), scaled by `1/log 2`. -/
noncomputable def L_dL_singleuser (C : List (List ℝ)) (s : UserState) :
    ℝ × List (List ℝ) × List ℕ :=
  let ab := s.abilities ++ [1]
  let pdata := pdataList C s
  let dLdY := List.zipWith (fun q p => (2 * q.1 - 1) * q.2 * (1 - q.2) / p)
    (s.correct.zip (zList C s)) pdata
  let dL0 := dLdY.map (fun g => ab.map (fun a => g * a))
  let dL := dL0.map (fun row => row.map (fun x => x / Real.log 2))
  let L := (pdata.map Real.log).sum / Real.log 2
  (-L, dL.map (fun row => row.map (fun x => -x)), s.exercises_ind)

/-- Split a list into consecutive chunks of size `k` (the final chunk may be
shorter).  Used both for `couplings_flat.reshape((-1, num_abilities + 1))`
(where the caller guarantees divisibility) and for `pool.map` chunking. -/
def chunksOf {α : Type} (k : ℕ) : List α → List (List α)
  | [] => []
  | x :: xs => (x :: xs.take (k - 1)) :: chunksOf k (xs.drop (k - 1))
termination_by l => l.length
decreasing_by simp only [List.length_drop, List.length_cons]; omega

/-- Elementwise sum of two rows (`numpy +` on aligned arrays). -/
def addRow (a b : List ℝ) : List ℝ := List.zipWith (fun x y => x + y) a b

/-- Last pair of `ps` whose index component is `i`, if any. -/
def lastContribution (ps : List (ℕ × List ℝ)) (i : ℕ) : Option (List ℝ) :=
  ((ps.filter (fun p => p.1 == i)).getLast?).map Prod.snd

/-- Worker for `fancyAddAt`, walking the matrix while tracking the row index. -/
def fancyAddFrom (ps : List (ℕ × List ℝ)) : ℕ → List (List ℝ) → List (List ℝ)
  | _, [] => []
  | i, row :: rest =>
    (match lastContribution ps i with
      | some c => addRow row c
      | none => row) :: fancyAddFrom ps (i + 1) rest

/-- numpy semantics of the fancy-indexed in-place addition
`m[inds, :] += rows`: the right-hand side gathers rows of the old `m`, adds
the contributions, and scatter-assigns; with duplicate indices the last
occurrence wins, so duplicates are NOT accumulated. -/
def fancyAddAt (m : List (List ℝ)) (inds : List ℕ) (rows : List (List ℝ)) :
    List (List ℝ) :=
  fancyAddFrom (inds.zip rows) 0 m

/-- The reduction loop of `L_dL` (lines 170-173): `L += Lu / N` and
`dL[exercise_indu, :] += dLu / N` over the per-user results. -/
noncomputable def reduceResults (n : ℕ) (rs : List (ℝ × List (List ℝ) × List ℕ))
    (acc : ℝ × List (List ℝ)) : ℝ × List (List ℝ) :=
  rs.foldl (fun a r =>
    (a.1 + r.1 / (n : ℝ),
     fancyAddAt a.2 r.2.2 (r.2.1.map (fun row => row.map (fun x => x / (n : ℝ)))))) acc

/-- Zero matrix with the shape of `C` (`np.zeros(couplings.shape)`). -/
def zerosLike (C : List (List ℝ)) : List (List ℝ) :=
  C.map (fun row => row.map (fun _ => (0 : ℝ)))

/-- Elementwise matrix addition. -/
def matAdd (A B : List (List ℝ)) : List (List ℝ) := List.zipWith addRow A B

/-- Embedding of `L_dL` (lines 154-178) before the final `ravel`: reshape the
flat couplings, map `L_dL_singleuser` over the users, reduce, then add the
L2 regularizer `lam * sum(couplings_flat ** 2)` and its gradient
`2 * lam * couplings`. -/
noncomputable def L_dL_mat (d : ℕ) (cf : List ℝ) (states : List UserState)
    (lam : ℝ) : ℝ × List (List ℝ) :=
  let C := chunksOf (d + 1) cf
  let a := reduceResults states.length
    (states.map (fun s => L_dL_singleuser C s)) (0, zerosLike C)
  (a.1 + lam * (cf.map (fun x => x ^ 2)).sum,
   matAdd a.2 (C.map (fun row => row.map (fun x => 2 * lam * x))))

/-- Embedding of `L_dL`: objective together with the ravelled gradient. -/
noncomputable def L_dL (d : ℕ) (cf : List ℝ) (states : List UserState)
    (lam : ℝ) : ℝ × List ℝ :=
  ((L_dL_mat d cf states lam).1, (L_dL_mat d cf states lam).2.flatten)

/-- Pooled variant of `L_dL_mat`: the per-user map is dispatched in chunks of
size `chunk` (as `pool.map(..., chunksize=...)` does) and the results are
reassembled in submission order before the same reduction. -/
noncomputable def L_dL_pool_mat (chunk d : ℕ) (cf : List ℝ)
    (states : List UserState) (lam : ℝ) : ℝ × List (List ℝ) :=
  let C := chunksOf (d + 1) cf
  let rs := ((chunksOf chunk states).map
    (fun grp => grp.map (fun s => L_dL_singleuser C s))).flatten
  let a := reduceResults states.length rs (0, zerosLike C)
  (a.1 + lam * (cf.map (fun x => x ^ 2)).sum,
   matAdd a.2 (C.map (fun row => row.map (fun x => 2 * lam * x))))

/-- Pooled variant of `L_dL`. -/
noncomputable def L_dL_pool (chunk d : ℕ) (cf : List ℝ)
    (states : List UserState) (lam : ℝ) : ℝ × List ℝ :=
  ((L_dL_pool_mat chunk d cf states lam).1,
   (L_dL_pool_mat chunk d cf states lam).2.flatten)

/-- Spec-side per-user negative log-likelihood, following the spec's words:
in log-base-2 units it is `−Σ log2(p)` over the per-attempt probabilities. -/
noncomputable def specNLL (C : List (List ℝ)) (s : UserState) : ℝ :=
  -((pdataList C s).map (fun p => Real.logb 2 p)).sum

/-- Spec-side accumulation (the semantics of `np.add.at`): every per-attempt
contribution is added into its row, duplicates included.  This follows the
spec's words "accumulated additively into the corresponding exercise rows". -/
def addAt (m : List (List ℝ)) (inds : List ℕ) (rows : List (List ℝ)) :
    List (List ℝ) :=
  (inds.zip rows).foldl
    (fun acc p => acc.set p.1 (addRow (acc.getD p.1 []) p.2)) m

/-- Spec-side reduction: like `reduceResults` but with true additive
accumulation for every contribution. -/
noncomputable def specGradReduce (n : ℕ) (rs : List (ℝ × List (List ℝ) × List ℕ))
    (m : List (List ℝ)) : List (List ℝ) :=
  rs.foldl (fun acc r =>
    addAt acc r.2.2 (r.2.1.map (fun row => row.map (fun x => x / (n : ℝ))))) m

/-- Spec-side gradient of the data term, with full additive accumulation. -/
noncomputable def L_dL_specGrad (d : ℕ) (cf : List ℝ) (states : List UserState) :
    List (List ℝ) :=
  specGradReduce states.length
    (states.map (fun s => L_dL_singleuser (chunksOf (d + 1) cf) s))
    (zerosLike (chunksOf (d + 1) cf))

lemma sigmoid_pos (y : ℝ) : 0 < sigmoid y := by
  unfold sigmoid
  positivity

lemma sigmoid_lt_one (y : ℝ) : sigmoid y < 1 := by
  unfold sigmoid
  rw [div_lt_one (by positivity)]
  linarith [Real.exp_pos (-y)]

lemma zList_mem_pos (C : List (List ℝ)) (s : UserState) :
    ∀ z ∈ zList C s, 0 < z ∧ z < 1 := by
  intro z hz
  simp only [zList, List.mem_map] at hz
  obtain ⟨row, _, rfl⟩ := hz
  exact ⟨sigmoid_pos _, sigmoid_lt_one _⟩

lemma pdata_pos_aux (c : List ℝ) :
    ∀ z : List ℝ, (∀ y ∈ c, y = 0 ∨ y = 1) → (∀ x ∈ z, 0 < x ∧ x < 1) →
    ∀ p ∈ List.zipWith (fun zt z => zt * z + (1 - zt) * (1 - z)) c z, 0 < p := by
  induction c with
  | nil => intro z _ _ p hp; simp at hp
  | cons y ys ih =>
    intro z hc hz p hp
    cases z with
    | nil => simp at hp
    | cons x xs =>
      simp only [List.zipWith_cons_cons, List.mem_cons] at hp
      rcases hp with rfl | hp
      · have hx1 := (hz x (by simp)).1
        have hx2 := (hz x (by simp)).2
        rcases hc y (by simp) with rfl | rfl <;> nlinarith
      · exact ih xs (fun u hu => hc u (by simp [hu]))
          (fun u hu => hz u (by simp [hu])) p hp

lemma sum_div_map (l : List ℝ) (c : ℝ) :
    l.sum / c = (l.map (fun x => x / c)).sum := by
  induction l with
  | nil => simp
  | cons x xs ih => simp [add_div, ih]

lemma L_dL_singleuser_fst (C : List (List ℝ)) (s : UserState) :
    (L_dL_singleuser C s).1 = specNLL C s := by
  simp only [L_dL_singleuser, specNLL, Real.logb]
  rw [sum_div_map, List.map_map]
  rfl

lemma reduceResults_fst (n : ℕ) (rs : List (ℝ × List (List ℝ) × List ℕ)) :
    ∀ acc : ℝ × List (List ℝ),
      (reduceResults n rs acc).1 = acc.1 + (rs.map (fun r => r.1)).sum / (n : ℝ) := by
  induction rs with
  | nil => intro acc; simp [reduceResults]
  | cons r rs ih =>
    intro acc
    have hstep : reduceResults n (r :: rs) acc
        = reduceResults n rs
          (acc.1 + r.1 / (n : ℝ),
           fancyAddAt acc.2 r.2.2
             (r.2.1.map (fun row => row.map (fun x => x / (n : ℝ))))) := by
      simp [reduceResults]
    rw [hstep, ih]
    simp [add_div]
    ring

lemma chunksOf_nil {α : Type} (k : ℕ) : chunksOf k ([] : List α) = [] := by
  simp [chunksOf]

lemma chunksOf_cons {α : Type} (k : ℕ) (x : α) (xs : List α) :
    chunksOf k (x :: xs)
      = (x :: xs.take (k - 1)) :: chunksOf k (xs.drop (k - 1)) := by
  rw [chunksOf]

lemma chunksOf_flatten {α : Type} (k : ℕ) : ∀ l : List α, (chunksOf k l).flatten = l
  | [] => by simp [chunksOf_nil]
  | x :: xs => by
    rw [chunksOf_cons, List.flatten_cons, chunksOf_flatten k (xs.drop (k - 1))]
    simp [List.take_append_drop]
termination_by l => l.length
decreasing_by simp only [List.length_drop, List.length_cons]; omega

lemma chunksOf_width {α : Type} (k : ℕ) (hk : 0 < k) :
    ∀ l : List α, k ∣ l.length → ∀ row ∈ chunksOf k l, row.length = k
  | [] => by intro _ row hrow; simp [chunksOf_nil] at hrow
  | x :: xs => by
    intro hdvd row hrow
    rw [chunksOf_cons] at hrow
    have hlen : k ≤ xs.length + 1 :=
      Nat.le_of_dvd (by omega) (by simpa using hdvd)
    rcases List.mem_cons.mp hrow with rfl | hrow2
    · simp only [List.length_cons, List.length_take]
      omega
    · have hdvd2 : k ∣ (xs.drop (k - 1)).length := by
        simp only [List.length_drop]
        have heq : xs.length - (k - 1) = xs.length + 1 - k := by omega
        rw [heq]
        exact Nat.dvd_sub' (by simpa using hdvd) dvd_rfl
      exact chunksOf_width k hk (xs.drop (k - 1)) hdvd2 row hrow2
termination_by l => l.length
decreasing_by simp only [List.length_drop, List.length_cons]; omega

lemma mem_of_getLast_opt {α : Type} :
    ∀ {l : List α} {a : α}, l.getLast? = some a → a ∈ l
  | [], a => by simp
  | [x], a => by
    intro h
    simp only [List.getLast?_singleton, Option.some.injEq] at h
    simp [h]
  | x :: y :: t, a => by
    rw [List.getLast?_cons_cons]
    intro h
    exact List.mem_cons_of_mem x (mem_of_getLast_opt h)

lemma lastContribution_mem {ps : List (ℕ × List ℝ)} {i : ℕ} {c : List ℝ}
    (h : lastContribution ps i = some c) : ∃ j, (j, c) ∈ ps := by
  unfold lastContribution at h
  obtain ⟨q, hq, hc⟩ := Option.map_eq_some'.mp h
  have hmem := List.mem_of_mem_filter (mem_of_getLast_opt hq)
  exact ⟨q.1, by rw [← hc]; simpa using hmem⟩

lemma lastContribution_eq_none {ps : List (ℕ × List ℝ)} {i : ℕ}
    (h : ∀ p ∈ ps, p.1 ≠ i) : lastContribution ps i = none := by
  unfold lastContribution
  have hfil : ps.filter (fun p => p.1 == i) = [] := by
    rw [List.filter_eq_nil_iff]
    intro p hp
    simpa using h p hp
  simp [hfil]

lemma addRow_length (a b : List ℝ) : (addRow a b).length = min a.length b.length := by
  simp [addRow]

lemma fancyAddFrom_length (ps : List (ℕ × List ℝ)) :
    ∀ (i : ℕ) (m : List (List ℝ)), (fancyAddFrom ps i m).length = m.length
  | _, [] => rfl
  | i, row :: rest => by
    simp [fancyAddFrom, fancyAddFrom_length ps (i + 1) rest]

lemma fancyAddFrom_width {w : ℕ} {ps : List (ℕ × List ℝ)}
    (hps : ∀ p ∈ ps, p.2.length = w) :
    ∀ (i : ℕ) (m : List (List ℝ)), (∀ row ∈ m, row.length = w) →
      ∀ row ∈ fancyAddFrom ps i m, row.length = w := by
  intro i m
  induction m generalizing i with
  | nil => intro _ row hrow; simp [fancyAddFrom] at hrow
  | cons r0 rest ih =>
    intro hm row hrow
    simp only [fancyAddFrom, List.mem_cons] at hrow
    rcases hrow with rfl | hrow2
    · rcases hlc : lastContribution ps i with _ | c
      · simpa [hlc] using hm r0 (by simp)
      · obtain ⟨j, hj⟩ := lastContribution_mem hlc
        simp only [hlc]
        rw [addRow_length, hm r0 (by simp), hps (j, c) hj]
        simp
    · exact ih (i + 1) (fun r hr => hm r (by simp [hr])) row hrow2

lemma reduceResults_shape {w : ℕ} (n : ℕ) :
    ∀ rs : List (ℝ × List (List ℝ) × List ℕ),
      (∀ r ∈ rs, ∀ row ∈ r.2.1, row.length = w) →
      ∀ acc : ℝ × List (List ℝ), (∀ row ∈ acc.2, row.length = w) →
      (reduceResults n rs acc).2.length = acc.2.length ∧
        ∀ row ∈ (reduceResults n rs acc).2, row.length = w := by
  intro rs
  induction rs with
  | nil => intro _ acc hacc; simp [reduceResults]; exact hacc
  | cons r rs ih =>
    intro hrs acc hacc
    have hstep : reduceResults n (r :: rs) acc
        = reduceResults n rs
          (acc.1 + r.1 / (n : ℝ),
           fancyAddAt acc.2 r.2.2
             (r.2.1.map (fun row => row.map (fun x => x / (n : ℝ))))) := by
      simp [reduceResults]
    have hscaled : ∀ p ∈ r.2.2.zip (r.2.1.map (fun row => row.map (fun x => x / (n : ℝ)))),
        p.2.length = w := by
      intro p hp
      have hp2 := (List.of_mem_zip hp).2
      simp only [List.mem_map] at hp2
      obtain ⟨row, hrow, hrw⟩ := hp2
      rw [← hrw]
      simpa using hrs r (by simp) row hrow
    have hacc2 : ∀ row ∈ fancyAddAt acc.2 r.2.2
        (r.2.1.map (fun row => row.map (fun x => x / (n : ℝ)))), row.length = w :=
      fancyAddFrom_width hscaled 0 acc.2 hacc
    have hlen2 : (fancyAddAt acc.2 r.2.2
        (r.2.1.map (fun row => row.map (fun x => x / (n : ℝ))))).length = acc.2.length :=
      fancyAddFrom_length _ 0 acc.2
    rw [hstep]
    have hrec := ih (fun rr hrr => hrs rr (by simp [hrr]))
      (acc.1 + r.1 / (n : ℝ),
       fancyAddAt acc.2 r.2.2
         (r.2.1.map (fun row => row.map (fun x => x / (n : ℝ))))) hacc2
    exact ⟨by rw [hrec.1]; exact hlen2, hrec.2⟩

lemma L_dL_singleuser_width (C : List (List ℝ)) (s : UserState) :
    ∀ row ∈ (L_dL_singleuser C s).2.1, row.length = s.abilities.length + 1 := by
  intro row hrow
  simp only [L_dL_singleuser, List.mem_map] at hrow
  obtain ⟨r1, ⟨r0, ⟨g, hg, hr0⟩, hr1⟩, hrow⟩ := hrow
  rw [← hrow, ← hr1, ← hr0]
  simp

lemma flatten_matAdd {w : ℕ} : ∀ (A B : List (List ℝ)),
    (∀ row ∈ A, row.length = w) → (∀ row ∈ B, row.length = w) →
    A.length = B.length →
    (matAdd A B).flatten = addRow A.flatten B.flatten
  | [], [], _, _, _ => by simp [matAdd, addRow]
  | [], b :: B, _, _, h => by simp at h
  | a :: A, [], _, _, h => by simp at h
  | a :: A, b :: B, hA, hB, h => by
    simp only [matAdd, List.zipWith_cons_cons, List.flatten_cons]
    rw [show List.zipWith addRow A B = matAdd A B from rfl]
    rw [flatten_matAdd A B (fun r hr => hA r (by simp [hr]))
      (fun r hr => hB r (by simp [hr])) (by simpa using h)]
    unfold addRow
    rw [List.zipWith_append _ _ _ _ _ (by rw [hA a (by simp), hB b (by simp)])]

lemma addRow_zero_right : ∀ a c : List ℝ, a.length = c.length →
    addRow a (c.map (fun _ => (0 : ℝ))) = a
  | [], [], _ => rfl
  | [], c :: cs, h => by simp at h
  | x :: a, [], h => by simp at h
  | x :: a, c :: cs, h => by
    simp only [List.map_cons, addRow, List.zipWith_cons_cons]
    rw [show List.zipWith (fun x y => x + y) a (cs.map fun _ => (0 : ℝ))
        = addRow a (cs.map fun _ => (0 : ℝ)) from rfl]
    rw [addRow_zero_right a cs (by simpa using h)]
    simp

lemma matAdd_zero_scale {w : ℕ} : ∀ A C : List (List ℝ),
    (∀ row ∈ A, row.length = w) → (∀ row ∈ C, row.length = w) →
    A.length = C.length →
    matAdd A (C.map (fun row => row.map (fun x => 2 * (0 : ℝ) * x))) = A
  | [], [], _, _, _ => rfl
  | [], c :: C, _, _, h => by simp at h
  | a :: A, [], _, _, h => by simp at h
  | a :: A, c :: C, hA, hC, h => by
    simp only [List.map_cons, matAdd, List.zipWith_cons_cons]
    have h1 : c.map (fun x => 2 * (0 : ℝ) * x) = c.map (fun _ => (0 : ℝ)) := by
      simp
    rw [h1, addRow_zero_right a c ((hA a (by simp)).trans (hC c (by simp)).symm)]
    rw [show List.zipWith addRow A (C.map (fun row => row.map (fun x => 2 * (0 : ℝ) * x)))
        = matAdd A (C.map (fun row => row.map (fun x => 2 * (0 : ℝ) * x))) from rfl]
    rw [matAdd_zero_scale A C (fun r hr => hA r (by simp [hr]))
      (fun r hr => hC r (by simp [hr])) (by simpa using h)]

lemma zerosLike_width {w : ℕ} (C : List (List ℝ)) (hC : ∀ row ∈ C, row.length = w) :
    ∀ row ∈ zerosLike C, row.length = w := by
  intro row hrow
  simp only [zerosLike, List.mem_map] at hrow
  obtain ⟨c, hc, rfl⟩ := hrow
  simpa using hC c hc

/-- C2: the objective returned by `L_dL` is the user-average of the per-user
negative log-base-2 likelihood plus the L2 regularizer `lam * Σ coupling²`,
and the returned gradient is the unregularized (`lam = 0`) gradient plus the
elementwise term `2 * lam * coupling`; with `lam = 0` both reduce to the
unregularized forms exactly. -/
theorem c2_objective_and_regularizer (d : ℕ) (cf : List ℝ)
    (states : List UserState) (lam : ℝ)
    (hdvd : (d + 1) ∣ cf.length)
    (hab : ∀ s ∈ states, s.abilities.length = d) :
    (L_dL d cf states lam).1
      = (states.map (fun s => specNLL (chunksOf (d + 1) cf) s)).sum
          / (states.length : ℝ)
        + lam * (cf.map (fun x => x ^ 2)).sum
    ∧ (L_dL d cf states lam).2
      = addRow ((L_dL d cf states 0).2) (cf.map (fun x => 2 * lam * x)) := by
  have hCw : ∀ row ∈ chunksOf (d + 1) cf, row.length = d + 1 :=
    chunksOf_width (d + 1) (by omega) cf hdvd
  have hrsw : ∀ r ∈ states.map (fun s => L_dL_singleuser (chunksOf (d + 1) cf) s),
      ∀ row ∈ r.2.1, row.length = d + 1 := by
    intro r hr
    simp only [List.mem_map] at hr
    obtain ⟨s, hs, rfl⟩ := hr
    intro row hrow
    rw [L_dL_singleuser_width _ s row hrow, hab s hs]
  have hz := zerosLike_width (w := d + 1) (chunksOf (d + 1) cf) hCw
  have hB := reduceResults_shape (w := d + 1) states.length
    (states.map (fun s => L_dL_singleuser (chunksOf (d + 1) cf) s)) hrsw
    (0, zerosLike (chunksOf (d + 1) cf)) hz
  have hBlen : (reduceResults states.length
      (states.map (fun s => L_dL_singleuser (chunksOf (d + 1) cf) s))
      (0, zerosLike (chunksOf (d + 1) cf))).2.length
      = (chunksOf (d + 1) cf).length := by
    rw [hB.1]
    simp [zerosLike]
  constructor
  · simp only [L_dL, L_dL_mat]
    rw [reduceResults_fst]
    rw [List.map_map]
    have hcomp : ((fun r : ℝ × List (List ℝ) × List ℕ => r.1)
        ∘ fun s => L_dL_singleuser (chunksOf (d + 1) cf) s)
        = fun s => specNLL (chunksOf (d + 1) cf) s := by
      funext s
      exact L_dL_singleuser_fst _ s
    rw [hcomp]
    ring
  · simp only [L_dL, L_dL_mat]
    rw [flatten_matAdd (w := d + 1) _ _ hB.2
      (by
        intro row hrow
        simp only [List.mem_map] at hrow
        obtain ⟨c, hc, rfl⟩ := hrow
        simpa using hCw c hc)
      (by rw [hBlen]; simp)]
    rw [matAdd_zero_scale (w := d + 1) _ _ hB.2 hCw hBlen]
    rw [← List.map_flatten, chunksOf_flatten]

/-- Concrete user state used by the C2 witness. -/
def stateC2 : UserState := ⟨[1], [0], [0]⟩

theorem c2_witness :
    ((1 + 1) ∣ ([0, 0] : List ℝ).length ∧
      ∀ s ∈ [stateC2], s.abilities.length = 1) ∧
    ((L_dL 1 [0, 0] [stateC2] 1).1
        = ([stateC2].map (fun s => specNLL (chunksOf (1 + 1) [0, 0]) s)).sum
            / (([stateC2] : List UserState).length : ℝ)
          + 1 * (([0, 0] : List ℝ).map (fun x => x ^ 2)).sum
      ∧ (L_dL 1 [0, 0] [stateC2] 1).2
        = addRow ((L_dL 1 [0, 0] [stateC2] 0).2)
            (([0, 0] : List ℝ).map (fun x => 2 * 1 * x))) :=
  ⟨⟨by decide, by simp [stateC2]⟩,
   c2_objective_and_regularizer 1 [0, 0] [stateC2] 1 (by decide)
     (by simp [stateC2])⟩

lemma reduceResults_length (n : ℕ) :
    ∀ (rs : List (ℝ × List (List ℝ) × List ℕ)) (acc : ℝ × List (List ℝ)),
      (reduceResults n rs acc).2.length = acc.2.length := by
  intro rs
  induction rs with
  | nil => intro acc; simp [reduceResults]
  | cons q qs ih =>
    intro acc
    have hstep : reduceResults n (q :: qs) acc
        = reduceResults n qs
          (acc.1 + q.1 / (n : ℝ),
           fancyAddAt acc.2 q.2.2
             (q.2.1.map (fun row => row.map (fun x => x / (n : ℝ))))) := by
      simp [reduceResults]
    rw [hstep, ih]
    exact fancyAddFrom_length _ 0 acc.2

lemma fancyAddFrom_getD_untouched (ps : List (ℕ × List ℝ)) :
    ∀ (i0 : ℕ) (m : List (List ℝ)) (r : ℕ),
      (∀ p ∈ ps, p.1 ≠ i0 + r) →
      (fancyAddFrom ps i0 m).getD r [] = m.getD r [] := by
  intro i0 m
  induction m generalizing i0 with
  | nil => intro r _; simp [fancyAddFrom]
  | cons row rest ih =>
    intro r hr
    cases r with
    | zero =>
      simp only [fancyAddFrom, List.getD_cons_zero]
      rw [lastContribution_eq_none (by simpa using hr)]
    | succ rr =>
      simp only [fancyAddFrom, List.getD_cons_succ]
      exact ih (i0 + 1) rr (by intro p hp; have := hr p hp; omega)

lemma reduceResults_getD_untouched (n : ℕ) :
    ∀ (rs : List (ℝ × List (List ℝ) × List ℕ)) (r : ℕ),
      (∀ rr ∈ rs, r ∉ rr.2.2) →
      ∀ acc : ℝ × List (List ℝ),
      (reduceResults n rs acc).2.getD r [] = acc.2.getD r [] := by
  intro rs
  induction rs with
  | nil => intro r _ acc; simp [reduceResults]
  | cons q qs ih =>
    intro r hr acc
    have hstep : reduceResults n (q :: qs) acc
        = reduceResults n qs
          (acc.1 + q.1 / (n : ℝ),
           fancyAddAt acc.2 q.2.2
             (q.2.1.map (fun row => row.map (fun x => x / (n : ℝ))))) := by
      simp [reduceResults]
    rw [hstep, ih r (fun rr hrr => hr rr (by simp [hrr]))]
    apply fancyAddFrom_getD_untouched
    intro p hp heq
    have hp1 := (List.of_mem_zip hp).1
    apply hr q (by simp)
    have : p.1 = r := by omega
    rw [← this]
    exact hp1

lemma getD_map_lt {α β : Type} (f : α → β) (l : List α) (r : ℕ) (h : r < l.length)
    (db : β) (da : α) : (l.map f).getD r db = f (l.getD r da) := by
  rw [List.getD_eq_getElem?_getD, List.getD_eq_getElem?_getD, List.getElem?_map,
    List.getElem?_eq_getElem h]
  simp

lemma matAdd_getD (A B : List (List ℝ)) (r : ℕ) (hA : r < A.length)
    (hB : r < B.length) :
    (matAdd A B).getD r [] = addRow (A.getD r []) (B.getD r []) := by
  have hAB : r < (matAdd A B).length := by
    simp only [matAdd, List.length_zipWith]
    omega
  rw [List.getD_eq_getElem?_getD, List.getElem?_eq_getElem hAB]
  simp only [matAdd, List.getElem_zipWith, Option.getD_some]
  rw [List.getD_eq_getElem?_getD, List.getElem?_eq_getElem hA,
    List.getD_eq_getElem?_getD, List.getElem?_eq_getElem hB]
  simp

lemma addRow_zero_map_left (c : List ℝ) (g : ℝ → ℝ) :
    addRow (c.map (fun _ => (0 : ℝ))) (c.map g) = c.map g := by
  induction c with
  | nil => rfl
  | cons x xs ih =>
    simp only [List.map_cons, addRow, List.zipWith_cons_cons] at *
    rw [ih]
    simp

lemma L_dL_mat_untouched_row (d : ℕ) (cf : List ℝ) (states : List UserState)
    (mu : ℝ) (r : ℕ)
    (hr : r < (chunksOf (d + 1) cf).length)
    (hun : ∀ s ∈ states, r ∉ s.exercises_ind) :
    (L_dL_mat d cf states mu).2.getD r []
      = ((chunksOf (d + 1) cf).getD r []).map (fun x => 2 * mu * x) := by
  simp only [L_dL_mat]
  have hBlen : (reduceResults states.length
      (states.map (fun s => L_dL_singleuser (chunksOf (d + 1) cf) s))
      (0, zerosLike (chunksOf (d + 1) cf))).2.length
      = (chunksOf (d + 1) cf).length := by
    rw [reduceResults_length]
    simp [zerosLike]
  rw [matAdd_getD _ _ r (by rw [hBlen]; exact hr) (by simpa using hr)]
  rw [reduceResults_getD_untouched states.length _ r
    (by
      intro rr hrr
      simp only [List.mem_map] at hrr
      obtain ⟨s, hs, rfl⟩ := hrr
      exact hun s hs) _]
  have hz : (zerosLike (chunksOf (d + 1) cf)).getD r []
      = ((chunksOf (d + 1) cf).getD r []).map (fun _ => (0 : ℝ)) := by
    unfold zerosLike
    exact getD_map_lt _ _ r hr [] []
  have hsc : ((chunksOf (d + 1) cf).map
      (fun row => row.map (fun x => 2 * mu * x))).getD r []
      = ((chunksOf (d + 1) cf).getD r []).map (fun x => 2 * mu * x) :=
    getD_map_lt _ _ r hr [] []
  rw [hz, hsc, addRow_zero_map_left]

/-- C5 (amended): the gradient row returned by `L_dL` for an exercise with no
observed attempts among the given users is exactly the regularization term
`2 * lam * coupling` on that row; in particular with regularization
coefficient 0 such a row is exactly zero. -/
theorem c5_unattempted_rows (d : ℕ) (cf : List ℝ) (states : List UserState)
    (lam : ℝ) (r : ℕ)
    (hr : r < (chunksOf (d + 1) cf).length)
    (hun : ∀ s ∈ states, r ∉ s.exercises_ind) :
    (L_dL_mat d cf states lam).2.getD r []
      = ((chunksOf (d + 1) cf).getD r []).map (fun x => 2 * lam * x)
    ∧ ∀ x ∈ (L_dL_mat d cf states 0).2.getD r [], x = 0 := by
  refine ⟨L_dL_mat_untouched_row d cf states lam r hr hun, ?_⟩
  intro x hx
  rw [L_dL_mat_untouched_row d cf states 0 r hr hun] at hx
  simp only [List.mem_map] at hx
  obtain ⟨y, _, rfl⟩ := hx
  ring

/-- Concrete user state used by the C5 witness (attempts exercise 0 only). -/
def stateC5w : UserState := ⟨[1], [0], [0]⟩

theorem c5_witness :
    (1 < (chunksOf (1 + 1) ([0, 0, 1, 1] : List ℝ)).length ∧
      ∀ s ∈ [stateC5w], 1 ∉ s.exercises_ind) ∧
    ((L_dL_mat 1 [0, 0, 1, 1] [stateC5w] 1).2.getD 1 []
        = ((chunksOf (1 + 1) ([0, 0, 1, 1] : List ℝ)).getD 1 []).map
            (fun x => 2 * 1 * x)
      ∧ ∀ x ∈ (L_dL_mat 1 [0, 0, 1, 1] [stateC5w] 0).2.getD 1 [], x = 0) :=
  ⟨⟨by simp [chunksOf_cons, chunksOf_nil], by simp [stateC5w]⟩,
   c5_unattempted_rows 1 [0, 0, 1, 1] [stateC5w] 1 1
     (by simp [chunksOf_cons, chunksOf_nil]) (by simp [stateC5w])⟩

/-- Concrete user state used by the C5 counterexample
(attempts exercise 0 only, never exercise 1). -/
def stateC5c : UserState := ⟨[1], [0], [0]⟩

/-- C5 counterexample: with couplings `[[0,0],[1,1]]` and regularization 1,
the single user attempts only exercise 0, yet the returned gradient row for
the unattempted exercise 1 is `[2, 2]`, not zero — the regularization term
`2·λ·coupling` lands on every row of the returned gradient. -/
theorem c5_counterexample :
    (L_dL_mat 1 [0, 0, 1, 1] [stateC5c] 1).2.getD 1 [] = [2, 2]
    ∧ ((2 : ℝ) ≠ 0) := by
  constructor
  · rw [L_dL_mat_untouched_row 1 [0, 0, 1, 1] [stateC5c] 1 1
      (by simp [chunksOf_cons, chunksOf_nil]) (by simp [stateC5c])]
    have : chunksOf (1 + 1) ([0, 0, 1, 1] : List ℝ) = [[0, 0], [1, 1]] := by
      simp [chunksOf_cons, chunksOf_nil]
    rw [this]
    norm_num
  · norm_num

/-- Concrete user state used for C1: one user attempting exercise 0 twice,
first correctly and then incorrectly, with ability vector `[0]`. -/
def stateC1 : UserState := ⟨[1, 0], [0, 0], [0]⟩

lemma sigmoid_zero : sigmoid 0 = 1 / 2 := by
  unfold sigmoid
  rw [neg_zero, Real.exp_zero]
  norm_num

lemma c1_zList : zList [[0, 0]] stateC1 = [1 / 2, 1 / 2] := by
  simp [zList, stateC1, dot, sigmoid_zero]

lemma c1_pdata : pdataList [[0, 0]] stateC1 = [1 / 2, 1 / 2] := by
  unfold pdataList
  rw [c1_zList]
  simp only [stateC1]
  norm_num

lemma c1_rows : (L_dL_singleuser [[0, 0]] stateC1).2.1
    = [[0, -(1 / 2 / Real.log 2)], [0, 1 / 2 / Real.log 2]] := by
  simp only [L_dL_singleuser]
  rw [c1_pdata, c1_zList]
  simp only [stateC1]
  norm_num
  ring

lemma c1_inds : (L_dL_singleuser [[0, 0]] stateC1).2.2 = [0, 0] := by
  simp [L_dL_singleuser, stateC1]

/-- C1: evaluation exhibiting the accumulation defect.  For a user who
attempts exercise 0 twice (correct then incorrect, ability 0) with couplings
`[[0,0]]` and no regularization, `L_dL` returns the gradient row
`[0, 1/2/log 2]` — only the second attempt's contribution landed, because the
numpy fancy-indexed `+=` collapses duplicate indices — whereas the spec's
additive accumulation of all per-attempt contributions (`L_dL_specGrad`)
yields the zero row, which is the true gradient of the returned objective. -/
theorem c1_duplicate_attempts_collapse :
    (L_dL_mat 1 [0, 0] [stateC1] 0).2 = [[0, 1 / 2 / Real.log 2]]
    ∧ L_dL_specGrad 1 [0, 0] [stateC1] = [[0, 0]]
    ∧ (1 / 2 / Real.log 2 : ℝ) ≠ 0 := by
  have hlog : Real.log 2 ≠ 0 := ne_of_gt (Real.log_pos (by norm_num))
  have hC : chunksOf (1 + 1) ([0, 0] : List ℝ) = [[0, 0]] := by
    simp [chunksOf_cons, chunksOf_nil]
  refine ⟨?_, ?_, ?_⟩
  · simp only [L_dL_mat, hC, List.map_cons, List.map_nil, List.length_cons,
      List.length_nil]
    simp only [reduceResults, List.foldl_cons, List.foldl_nil]
    rw [c1_rows, c1_inds]
    simp only [zerosLike, List.map_cons, List.map_nil]
    norm_num
    simp [fancyAddAt, fancyAddFrom, lastContribution, List.filter,
      List.getLast?_cons_cons, List.getLast?_singleton, addRow, matAdd]
  · simp only [L_dL_specGrad, hC, List.map_cons, List.map_nil, List.length_cons,
      List.length_nil]
    simp only [specGradReduce, List.foldl_cons, List.foldl_nil]
    rw [c1_rows, c1_inds]
    simp only [zerosLike, List.map_cons, List.map_nil]
    norm_num
    simp [addAt, addRow]
  · exact div_ne_zero (by norm_num) hlog

lemma addRow_right_comm : ∀ a b c : List ℝ,
    addRow (addRow a b) c = addRow (addRow a c) b := by
  intro a
  induction a with
  | nil => intro b c; simp [addRow]
  | cons x a ih =>
    intro b c
    cases b with
    | nil => cases c <;> simp [addRow]
    | cons y b2 =>
      cases c with
      | nil => simp [addRow]
      | cons z c2 =>
        simp only [addRow, List.zipWith_cons_cons]
        exact congrArg₂ List.cons (by ring) (ih b2 c2)

lemma fancyAddFrom_comm (ps1 ps2 : List (ℕ × List ℝ)) :
    ∀ (i : ℕ) (m : List (List ℝ)),
      fancyAddFrom ps2 i (fancyAddFrom ps1 i m)
        = fancyAddFrom ps1 i (fancyAddFrom ps2 i m) := by
  intro i m
  induction m generalizing i with
  | nil => simp [fancyAddFrom]
  | cons row rest ih =>
    simp only [fancyAddFrom]
    refine congrArg₂ List.cons ?_ (ih (i + 1))
    rcases h1 : lastContribution ps1 i with _ | c1 <;>
      rcases h2 : lastContribution ps2 i with _ | c2 <;>
      simp [h1, h2, addRow_right_comm]

/-- C4: the pooled evaluation of the M-step objective/gradient agrees exactly
with the synchronous one for every chunk size, and the reduction over per-user
results is invariant under any permutation (completion order) of those
results; worker count does not appear in the result semantics because
`pool.map` returns results in submission order. -/
theorem c4_parallel_reduction_deterministic (chunk d : ℕ) (cf : List ℝ)
    (states : List UserState) (lam : ℝ) :
    L_dL_pool chunk d cf states lam = L_dL d cf states lam
    ∧ ∀ rs, List.Perm
        (states.map (fun s => L_dL_singleuser (chunksOf (d + 1) cf) s)) rs →
        reduceResults states.length rs (0, zerosLike (chunksOf (d + 1) cf))
          = reduceResults states.length
            (states.map (fun s => L_dL_singleuser (chunksOf (d + 1) cf) s))
            (0, zerosLike (chunksOf (d + 1) cf)) := by
  constructor
  · have hrs : ((chunksOf chunk states).map
        (fun grp => grp.map (fun s => L_dL_singleuser (chunksOf (d + 1) cf) s))).flatten
        = states.map (fun s => L_dL_singleuser (chunksOf (d + 1) cf) s) := by
      rw [← List.map_flatten, chunksOf_flatten]
    simp only [L_dL_pool, L_dL, L_dL_pool_mat, L_dL_mat, hrs]
  · intro rs hperm
    unfold reduceResults
    refine (hperm.foldl_eq' ?_ _).symm
    intro x _ y _ z
    refine Prod.ext ?_ ?_
    · simp only
      ring
    · simp only [fancyAddAt]
      exact fancyAddFrom_comm _ _ 0 z.2

/-- Concrete user states used by the C4 witness. -/
def stateC4a : UserState := ⟨[1], [0], [0]⟩

/-- Second concrete user state used by the C4 witness. -/
def stateC4b : UserState := ⟨[0], [0], [0]⟩

theorem c4_witness :
    L_dL_pool 2 1 [0, 0] [stateC4a, stateC4b] 0
      = L_dL 1 [0, 0] [stateC4a, stateC4b] 0
    ∧ reduceResults 2
        [L_dL_singleuser (chunksOf (1 + 1) [0, 0]) stateC4b,
         L_dL_singleuser (chunksOf (1 + 1) [0, 0]) stateC4a]
        (0, zerosLike (chunksOf (1 + 1) [0, 0]))
      = reduceResults 2
        ([stateC4a, stateC4b].map
          (fun s => L_dL_singleuser (chunksOf (1 + 1) [0, 0]) s))
        (0, zerosLike (chunksOf (1 + 1) [0, 0])) := by
  have h := c4_parallel_reduction_deterministic 2 1 [0, 0] [stateC4a, stateC4b] 0
  refine ⟨h.1, ?_⟩
  have hswap : List.Perm
      ([stateC4a, stateC4b].map
        (fun s => L_dL_singleuser (chunksOf (1 + 1) [0, 0]) s))
      [L_dL_singleuser (chunksOf (1 + 1) [0, 0]) stateC4b,
       L_dL_singleuser (chunksOf (1 + 1) [0, 0]) stateC4a] := by
    simp only [List.map_cons, List.map_nil]
    exact List.Perm.swap _ _ _
  have h2 := h.2 _ hswap
  simpa using h2

/-- `zList` (lines 137-141) with the sigmoid implementation made explicit, so
the exact logistic and the program's saturating float64 evaluation can be run
through the same source pipeline; `zListWith sigmoid` is definitionally
`zList`. -/
noncomputable def zListWith (sig : ℝ → ℝ) (C : List (List ℝ)) (s : UserState) : List ℝ :=
  (s.exercises_ind.map (fun i => C.getD i [])).map
    (fun row => sig (dot row (s.abilities ++ [1])))

/-- `pdataList` (line 143) with the sigmoid implementation made explicit: the
code applies nothing after `Zt * Z + (1 - Zt) * (1 - Z)` — no clamp and no
logit-domain form. -/
noncomputable def pdataListWith (sig : ℝ → ℝ) (C : List (List ℝ)) (s : UserState) : List ℝ :=
  List.zipWith (fun zt z => zt * z + (1 - zt) * (1 - z)) s.correct (zListWith sig C s)

/-- Modelled from the spec: `mirt_util.sigmoid` as the program actually
evaluates it, in IEEE-754 double precision (the overflow hazard the spec's
numeric-edge-cases section flags) — for arguments at or below -710,
`exp(-y)` overflows to infinity and `1 / (1 + exp(-y))` is exactly 0; away
from saturation the exact value is kept, since only the exact zero matters
for the division by `p`. -/
noncomputable def sigmoidF (y : ℝ) : ℝ := if y ≤ -710 then 0 else sigmoid y

/-- Modelled from the spec: the clamp the spec demands ("clamp probabilities"),
applied to the code's per-attempt probabilities — the computation `L_dL_singleuser`
would need to keep `p` away from exactly 0. -/
noncomputable def pdataClampedWith (sig : ℝ → ℝ) (eps : ℝ) (C : List (List ℝ))
    (s : UserState) : List ℝ :=
  (pdataListWith sig C s).map (fun p => max eps p)

/-- A representative positive clamp threshold (2^-52, double-precision machine
epsilon). -/
noncomputable def epsC3 : ℝ := 1 / 2 ^ 52

/-- User state exhibiting the C3 hazard: one correct attempt on exercise 0 by
a learner with ability vector [-710]. -/
def stateC3 : UserState := ⟨[1], [0], [-710]⟩

/-- Coupling matrix exhibiting the C3 hazard: coupling row [1, 0], so the
dot product with the bias-augmented ability vector is -710. -/
def matC3 : List (List ℝ) := [[1, 0]]

/-- C3: code bug — lines 140-144 compute `pdata = Zt·Z + (1−Zt)·(1−Z)` with no
clamping and no logit-domain formulation, so when the program's float64 sigmoid
saturates to exactly 0 (arguments ≤ -710; here a correct attempt whose
coupling-row–ability product is -710) the per-attempt probability is exactly 0
and the gradient's division by `p` divides by zero.  The clamp the spec demands
keeps `p` strictly positive at the same input; `pdataListWith sigmoid` is the
code's exact pipeline, whose exact logistic never reaches 0 at all — the hazard
is purely the absent clamp, in float arithmetic. -/
theorem c3_unclamped_p_reaches_zero :
    pdataListWith sigmoidF matC3 stateC3 = [0] ∧
    pdataClampedWith sigmoidF epsC3 matC3 stateC3 = [epsC3] ∧
    (0 : ℝ) < epsC3 ∧
    (∀ C s, pdataList C s = pdataListWith sigmoid C s) ∧
    (0 : ℝ) < sigmoid (-710) := by
  have h0 : sigmoidF (-710 : ℝ) = 0 := by
    unfold sigmoidF
    exact if_pos le_rfl
  have h1 : pdataListWith sigmoidF matC3 stateC3 = [0] := by
    simp only [pdataListWith, zListWith, stateC3, matC3]
    norm_num [dot, h0]
  refine ⟨h1, ?_, by norm_num [epsC3], fun C s => rfl, sigmoid_pos _⟩
  unfold pdataClampedWith
  rw [h1]
  simp only [List.map_cons, List.map_nil]
  rw [max_eq_left (by norm_num [epsC3])]

/-! Ingestion (`main`, lines 181-233).  Input rows arrive pre-split into
fields (`linesplit.split` of each line); a row is a `List String`.  The
field positions of `acc_util.FieldIndexer(plog_fields)` are not under src/,
so they are modelled from the spec (§6): user id, row type, exercise id,
correctness flag, eventual-correctness flag, problem number, attempt count,
hint count, time taken, at fixed consecutive positions. -/

/-- The maximum number of exercises that might exist (`MAX_EXERCISES`). -/
def MAX_EXERCISES : ℕ := 10000

/-- Modelled from the spec: position of the user-id field. -/
def idxUser : ℕ := 0

/-- Modelled from the spec: position of the row-type field. -/
def idxRowtype : ℕ := 1

/-- Modelled from the spec: position of the exercise-id field. -/
def idxExercise : ℕ := 2

/-- Modelled from the spec: position of the correctness flag. -/
def idxCorrect : ℕ := 3

/-- Modelled from the spec: position of the eventual-correctness flag. -/
def idxEventuallyCorrect : ℕ := 4

/-- Modelled from the spec: position of the problem-number field. -/
def idxProblemNumber : ℕ := 5

/-- Modelled from the spec: position of the attempt-count field. -/
def idxNumberAttempts : ℕ := 6

/-- Modelled from the spec: position of the hint-count field. -/
def idxNumberHints : ℕ := 7

/-- Modelled from the spec: position of the time-taken field. -/
def idxTimeTaken : ℕ := 8

/-- The row-type discriminator of retained rows. -/
def plogTag : String := "problemlog"

/-- The string the correctness flag is compared against (`== 'true'`). -/
def trueTag : String := "true"

/-- Default for absent fields (never observed on in-range accesses). -/
def emptyStr : String := ""

/-- Error message standing for a Python `IndexError`. -/
def indexErrorMsg : String := "IndexError"

/-- Error message standing for a Python `ValueError` from `int()`/`float()`. -/
def valueErrorMsg : String := "ValueError"

/-- Value of a non-empty all-digit character list. -/
def digitsVal (cs : List Char) : Option ℕ :=
  if cs = [] then none
  else if cs.all (fun c => c.isDigit) then
    some (cs.foldl (fun n c => 10 * n + (c.toNat - 48)) 0)
  else none

/-- Python `int(str)`: an optional sign followed by at least one digit
(whitespace tolerance is not modelled; the input fields carry none). -/
def parseInt (s : String) : Option ℤ :=
  match s.data with
  | [] => none
  | c :: rest =>
    if c = '-' then (digitsVal rest).map (fun n => -(n : ℤ))
    else if c = '+' then (digitsVal rest).map (fun n => (n : ℤ))
    else (digitsVal (c :: rest)).map (fun n => (n : ℤ))

/-- Digits-with-optional-point body of a float literal. -/
def floatVal (cs : List Char) : Option ℚ :=
  let ip := cs.takeWhile (fun c => c != '.')
  let rest := cs.dropWhile (fun c => c != '.')
  match rest with
  | [] => (digitsVal ip).map (fun n => (n : ℚ))
  | _ :: frac =>
    if ip.all (fun c => c.isDigit) ∧ frac.all (fun c => c.isDigit)
        ∧ (ip ≠ [] ∨ frac ≠ []) then
      some ((ip.foldl (fun n c => 10 * n + (c.toNat - 48)) 0 : ℕ)
        + ((frac.foldl (fun n c => 10 * n + (c.toNat - 48)) 0 : ℕ) : ℚ)
          / ((10 : ℚ) ^ frac.length))
    else none

/-- Python `float(str)` restricted to decimal literals: optional sign, digits
with an optional decimal point (exponent forms are not modelled; the claims
only depend on parse success or failure). -/
def parseFloat (s : String) : Option ℚ :=
  match s.data with
  | [] => none
  | c :: rest =>
    if c = '-' then (floatVal rest).map (fun q => -q)
    else if c = '+' then floatVal rest
    else floatVal (c :: rest)

/-- A retained problem-attempt record: the converted correctness flag and the
exercise identifier (the only fields `create_user_state` reads). -/
structure Attempt where
  correct : Bool
  exercise : String
deriving DecidableEq

/-- The ingestion loop state: accumulated user states, the
`exercise_ind_dict` association list (insertion-ordered), the global
`current_ind` counter, the previous-user tracker and the attempts buffer. -/
structure IngestSt where
  userStates : List UserState
  dict : List (String × ℕ)
  nextInd : ℕ
  prevUser : Option String
  attempts : List Attempt

/-- Lookups with `defaultdict(generate_exercise_ind)` semantics: a missing
key is assigned the next available index at lookup time.  Returns the updated
dictionary and counter together with the index list. -/
def assignInds : List (String × ℕ) → ℕ → List String →
    List (String × ℕ) × ℕ × List ℕ
  | dict, n, [] => (dict, n, [])
  | dict, n, e :: es =>
    match dict.lookup e with
    | some v =>
      let r := assignInds dict n es
      (r.1, r.2.1, v :: r.2.2)
    | none =>
      let r := assignInds (dict ++ [(e, n)]) (n + 1) es
      (r.1, r.2.1, n :: r.2.2)

/-- `create_user_state` (lines 110-121): correctness converted to 0/1 ints,
exercise indices resolved through the defaultdict (mutating it on first
sight), abilities drawn from `np.random.randn` — modelled as the zero vector,
since no claim depends on the sampled value. -/
def createUserState (d : ℕ) (attempts : List Attempt)
    (dict : List (String × ℕ)) (n : ℕ) : UserState × List (String × ℕ) × ℕ :=
  let r := assignInds dict n (attempts.map (fun a => a.exercise))
  (⟨attempts.map (fun a => if a.correct then (1 : ℝ) else 0), r.2.2,
    List.replicate d 0⟩, r.1, r.2.1)

/-- The user-change flush (lines 208-213): close the buffered attempts into a
user state and clear the buffer. -/
def flushSt (d : ℕ) (st : IngestSt) : IngestSt :=
  { st with
    userStates := st.userStates
      ++ [(createUserState d st.attempts st.dict st.nextInd).1]
    dict := (createUserState d st.attempts st.dict st.nextInd).2.1
    nextInd := (createUserState d st.attempts st.dict st.nextInd).2.2
    attempts := [] }

/-- The user-tracking prefix of each loop iteration (lines 207-214): flush on
a user change with a non-empty buffer, then update `prev_user` — before the
row-type filter, for records of every row type. -/
def stepUser (d : ℕ) (st : IngestSt) (u : String) : IngestSt :=
  { (if some u ≠ st.prevUser ∧ st.attempts ≠ [] then flushSt d st else st)
    with prevUser := some u }

/-- Field access `row[i]`: a Python `IndexError` on a short row is a fatal
uncaught exception, modelled as `Except.error`. -/
def getF (row : List String) (i : ℕ) : Except String String :=
  match row[i]? with
  | some v => Except.ok v
  | none => Except.error indexErrorMsg

/-- An uncaught `ValueError` from a failed `int()`/`float()` conversion. -/
def toExcept {α : Type} (o : Option α) : Except String α :=
  match o with
  | some v => Except.ok v
  | none => Except.error valueErrorMsg

/-- The retained attempt a problem-log row contributes. -/
def attemptOfRow (r : List String) : Attempt :=
  ⟨r.getD idxCorrect emptyStr == trueTag, r.getD idxExercise emptyStr⟩

/-- The row-type-and-parse part of one loop iteration (lines 215-223): only
`problemlog` rows are retained; the boolean flags are compared against
`'true'` (which cannot fail), the three count fields go through `int()` and
the time field through `float()` (which abort on unparseable input). -/
def processRowCore (st2 : IngestSt) (row : List String) :
    Except String IngestSt := do
  let rowtype ← getF row idxRowtype
  if rowtype = plogTag then do
    let correctS ← getF row idxCorrect
    let _ ← getF row idxEventuallyCorrect
    let pn ← getF row idxProblemNumber
    let _ ← toExcept (parseInt pn)
    let na ← getF row idxNumberAttempts
    let _ ← toExcept (parseInt na)
    let nh ← getF row idxNumberHints
    let _ ← toExcept (parseInt nh)
    let tt ← getF row idxTimeTaken
    let _ ← toExcept (parseFloat tt)
    let ex ← getF row idxExercise
    pure { st2 with attempts := st2.attempts ++ [⟨correctS == trueTag, ex⟩] }
  else
    pure st2

/-- One iteration of the ingestion loop (lines 202-223). -/
def processRow (d : ℕ) (st : IngestSt) (row : List String) :
    Except String IngestSt := do
  let user ← getF row idxUser
  processRowCore (stepUser d st user) row

/-- The end-of-replica flush (lines 225-228): append a state for the trailing
attempts WITHOUT clearing the attempts buffer — the script does not reset
`attempts` there, so the buffer carries over into the next replica. -/
def endFlush (d : ℕ) (st : IngestSt) : IngestSt :=
  if st.attempts = [] then st
  else
    { st with
      userStates := st.userStates
        ++ [(createUserState d st.attempts st.dict st.nextInd).1]
      dict := (createUserState d st.attempts st.dict st.nextInd).2.1
      nextInd := (createUserState d st.attempts st.dict st.nextInd).2.2 }

/-- One pass over the input rows followed by the end-of-replica flush. -/
def ingestReplica (d : ℕ) (rows : List (List String)) (st : IngestSt) :
    Except String IngestSt := do
  let st2 ← rows.foldlM (processRow d) st
  pure (endFlush d st2)

/-- The initial ingestion state. -/
def initIngestSt : IngestSt := ⟨[], [], 0, none, []⟩

/-- The replica loop (`for _ in range(options.num_replicas)`). -/
def ingestIter (d : ℕ) (rows : List (List String)) :
    ℕ → IngestSt → Except String IngestSt
  | 0, st => Except.ok st
  | k + 1, st => do
    let st2 ← ingestReplica d rows st
    ingestIter d rows k st2

/-- Full ingestion: `num_replicas` passes over the input from the initial
state. -/
def ingest (d : ℕ) (rows : List (List String)) (reps : ℕ) :
    Except String IngestSt :=
  ingestIter d rows reps initIngestSt

/-- The trimmed coupling matrix `couplings[:current_ind, :]` of the
`np.zeros((MAX_EXERCISES, d + 1))` initial matrix; numpy slicing clamps, so
the row count is `min current_ind MAX_EXERCISES`. -/
def trimmedCouplings (d : ℕ) (st : IngestSt) : List (List ℝ) :=
  List.replicate (min st.nextInd MAX_EXERCISES) (List.replicate (d + 1) 0)

/-- The user field of a row. -/
def userOf (r : List String) : String := r.getD idxUser emptyStr

/-- Whether a row carries the problem-attempt row type. -/
def isPlogRow (r : List String) : Bool := r.getD idxRowtype emptyStr == plogTag

/-- The exercise identifiers of the problem-attempt rows, in input order. -/
def plogExercises (rows : List (List String)) : List String :=
  (rows.filter (fun r => isPlogRow r)).map (fun r => r.getD idxExercise emptyStr)

/-- First-seen index assignment over a key sequence, extending `dict`. -/
def buildDictGo (dict : List (String × ℕ)) (ks : List String) :
    List (String × ℕ) :=
  ks.foldl (fun dct k =>
    if (dct.lookup k).isSome then dct else dct ++ [(k, dct.length)]) dict

/-- First-seen index assignment from the empty dictionary. -/
def buildDict (ks : List String) : List (String × ℕ) := buildDictGo [] ks

/-- Well-formedness of a row: the user and row-type fields exist, and for
problem-log rows all parsed fields exist and parse.  Exactly the rows the
ingestion loop survives. -/
def GoodRow (r : List String) : Prop :=
  2 ≤ r.length ∧
  (r[idxRowtype]? = some plogTag →
    (9 ≤ r.length ∧ (parseInt (r.getD idxProblemNumber emptyStr)).isSome
      ∧ (parseInt (r.getD idxNumberAttempts emptyStr)).isSome
      ∧ (parseInt (r.getD idxNumberHints emptyStr)).isSome
      ∧ (parseFloat (r.getD idxTimeTaken emptyStr)).isSome))

instance (r : List String) : Decidable (GoodRow r) := by
  unfold GoodRow
  infer_instance

/-- A malformed problem-attempt record: the row type says `problemlog` but
the record is short or a numeric field fails to parse. -/
def BadPlogRow (r : List String) : Prop :=
  r[idxRowtype]? = some plogTag ∧
  (r.length < 9 ∨ parseInt (r.getD idxProblemNumber emptyStr) = none
    ∨ parseInt (r.getD idxNumberAttempts emptyStr) = none
    ∨ parseInt (r.getD idxNumberHints emptyStr) = none
    ∨ parseFloat (r.getD idxTimeTaken emptyStr) = none)

instance (r : List String) : Decidable (BadPlogRow r) := by
  unfold BadPlogRow
  infer_instance

/-- The problem-attempt records of a contiguous block of rows. -/
def runAttempts (run : List (List String)) : List Attempt :=
  run.filterMap (fun r => if isPlogRow r then some (attemptOfRow r) else none)

lemma length_dropWhile_le {α : Type} (p : α → Bool) (l : List α) :
    (l.dropWhile p).length ≤ l.length := by
  induction l with
  | nil => simp
  | cons x xs ih =>
    rw [List.dropWhile_cons]
    split
    · exact le_trans ih (by simp)
    · simp

/-- The maximal same-user contiguous blocks of the input, in order. -/
def userRuns : List (List String) → List (List (List String))
  | [] => []
  | r :: rs =>
    (r :: rs.takeWhile (fun x => userOf x == userOf r))
      :: userRuns (rs.dropWhile (fun x => userOf x == userOf r))
termination_by l => l.length
decreasing_by
  simp only [List.length_cons]
  exact Nat.lt_succ_of_le (length_dropWhile_le _ _)

/-- The user states produced by a list of contiguous blocks, threading the
exercise dictionary: one state per block with at least one problem-attempt
record, none for blocks without. -/
def runsStates (d : ℕ) : List (List (List String)) → List (String × ℕ) → ℕ →
    List UserState × List (String × ℕ) × ℕ
  | [], dict, n => ([], dict, n)
  | run :: rest, dict, n =>
    if runAttempts run = [] then runsStates d rest dict n
    else
      let c := createUserState d (runAttempts run) dict n
      let r := runsStates d rest c.2.1 c.2.2
      (c.1 :: r.1, r.2)

lemma bind_ok_eq {ε α β : Type} (a : α) (f : α → Except ε β) :
    (Except.ok a : Except ε α) >>= f = f a := rfl

lemma bind_err_eq {ε α β : Type} (e : ε) (f : α → Except ε β) :
    (Except.error e : Except ε α) >>= f = Except.error e := rfl

lemma getElem?_eq_some_getD {α : Type} (l : List α) (i : ℕ) (dd : α)
    (h : i < l.length) : l[i]? = some (l.getD i dd) := by
  rw [List.getElem?_eq_getElem h, List.getD_eq_getElem?_getD,
    List.getElem?_eq_getElem h]
  simp

lemma getF_ok (row : List String) (i : ℕ) (h : i < row.length) :
    getF row i = Except.ok (row.getD i emptyStr) := by
  unfold getF
  rw [getElem?_eq_some_getD row i emptyStr h]

lemma getF_ok_lt {row : List String} {i : ℕ} {v : String}
    (h : getF row i = Except.ok v) : i < row.length := by
  by_contra hge
  push_neg at hge
  unfold getF at h
  rw [List.getElem?_eq_none hge] at h
  exact absurd h (by simp)

lemma toExcept_ok_isSome {α : Type} {o : Option α} {v : α}
    (h : toExcept o = Except.ok v) : o.isSome := by
  cases o with
  | none => unfold toExcept at h; exact absurd h (by simp)
  | some w => rfl

lemma processRow_nonplog (d : ℕ) (st : IngestSt) (row : List String)
    (h2 : 2 ≤ row.length) (ht : row.getD idxRowtype emptyStr ≠ plogTag) :
    processRow d st row = Except.ok (stepUser d st (userOf row)) := by
  unfold processRow processRowCore
  rw [getF_ok row idxUser (by unfold idxUser; omega)]
  simp only [bind_ok_eq]
  rw [getF_ok row idxRowtype (by unfold idxRowtype; omega)]
  simp only [bind_ok_eq]
  rw [if_neg ht]
  rfl

lemma processRow_plog (d : ℕ) (st : IngestSt) (row : List String)
    (hg : GoodRow row) (ht : row.getD idxRowtype emptyStr = plogTag) :
    processRow d st row = Except.ok
      { stepUser d st (userOf row) with
        attempts := (stepUser d st (userOf row)).attempts ++ [attemptOfRow row] } := by
  have h2 : 2 ≤ row.length := hg.1
  have hplog : row[idxRowtype]? = some plogTag := by
    rw [getElem?_eq_some_getD row idxRowtype emptyStr (by unfold idxRowtype; omega), ht]
  obtain ⟨h9, hpn, hna, hnh, htt⟩ := hg.2 hplog
  unfold processRow processRowCore
  rw [getF_ok row idxUser (by unfold idxUser; omega)]
  simp only [bind_ok_eq]
  rw [getF_ok row idxRowtype (by unfold idxRowtype; omega)]
  simp only [bind_ok_eq]
  rw [if_pos ht]
  rw [getF_ok row idxCorrect (by unfold idxCorrect; omega)]
  simp only [bind_ok_eq]
  rw [getF_ok row idxEventuallyCorrect (by unfold idxEventuallyCorrect; omega)]
  simp only [bind_ok_eq]
  rw [getF_ok row idxProblemNumber (by unfold idxProblemNumber; omega)]
  simp only [bind_ok_eq]
  obtain ⟨v1, hv1⟩ := Option.isSome_iff_exists.mp hpn
  rw [hv1]
  simp only [toExcept, bind_ok_eq]
  rw [getF_ok row idxNumberAttempts (by unfold idxNumberAttempts; omega)]
  simp only [bind_ok_eq]
  obtain ⟨v2, hv2⟩ := Option.isSome_iff_exists.mp hna
  rw [hv2]
  simp only [toExcept, bind_ok_eq]
  rw [getF_ok row idxNumberHints (by unfold idxNumberHints; omega)]
  simp only [bind_ok_eq]
  obtain ⟨v3, hv3⟩ := Option.isSome_iff_exists.mp hnh
  rw [hv3]
  simp only [toExcept, bind_ok_eq]
  rw [getF_ok row idxTimeTaken (by unfold idxTimeTaken; omega)]
  simp only [bind_ok_eq]
  obtain ⟨v4, hv4⟩ := Option.isSome_iff_exists.mp htt
  rw [hv4]
  simp only [toExcept, bind_ok_eq]
  rw [getF_ok row idxExercise (by unfold idxExercise; omega)]
  simp only [bind_ok_eq]
  rfl

lemma processRow_ok_good {d : ℕ} {st : IngestSt} {row : List String}
    {st2 : IngestSt} (h : processRow d st row = Except.ok st2) : GoodRow row := by
  unfold processRow at h
  cases hu : getF row idxUser with
  | error e => rw [hu, bind_err_eq] at h; exact absurd h (by simp)
  | ok u =>
    rw [hu, bind_ok_eq] at h
    unfold processRowCore at h
    cases ht : getF row idxRowtype with
    | error e => rw [ht, bind_err_eq] at h; exact absurd h (by simp)
    | ok t =>
      rw [ht, bind_ok_eq] at h
      have hlen2 : 2 ≤ row.length := by
        have := getF_ok_lt ht
        unfold idxRowtype at this
        omega
      refine ⟨hlen2, fun hplog => ?_⟩
      have htval : t = plogTag := by
        unfold getF at ht
        rw [hplog] at ht
        simpa using ht.symm
      subst htval
      rw [if_pos rfl] at h
      cases hc : getF row idxCorrect with
      | error e => rw [hc, bind_err_eq] at h; exact absurd h (by simp)
      | ok cS =>
      rw [hc, bind_ok_eq] at h
      cases hec : getF row idxEventuallyCorrect with
      | error e => rw [hec, bind_err_eq] at h; exact absurd h (by simp)
      | ok ecS =>
      rw [hec, bind_ok_eq] at h
      cases hpn : getF row idxProblemNumber with
      | error e => rw [hpn, bind_err_eq] at h; exact absurd h (by simp)
      | ok pnS =>
      rw [hpn, bind_ok_eq] at h
      cases hpi : toExcept (parseInt pnS) with
      | error e => rw [hpi, bind_err_eq] at h; exact absurd h (by simp)
      | ok pv =>
      rw [hpi, bind_ok_eq] at h
      cases hna : getF row idxNumberAttempts with
      | error e => rw [hna, bind_err_eq] at h; exact absurd h (by simp)
      | ok naS =>
      rw [hna, bind_ok_eq] at h
      cases hni : toExcept (parseInt naS) with
      | error e => rw [hni, bind_err_eq] at h; exact absurd h (by simp)
      | ok nv =>
      rw [hni, bind_ok_eq] at h
      cases hnh : getF row idxNumberHints with
      | error e => rw [hnh, bind_err_eq] at h; exact absurd h (by simp)
      | ok nhS =>
      rw [hnh, bind_ok_eq] at h
      cases hhi : toExcept (parseInt nhS) with
      | error e => rw [hhi, bind_err_eq] at h; exact absurd h (by simp)
      | ok hv =>
      rw [hhi, bind_ok_eq] at h
      cases htt : getF row idxTimeTaken with
      | error e => rw [htt, bind_err_eq] at h; exact absurd h (by simp)
      | ok ttS =>
      rw [htt, bind_ok_eq] at h
      cases hti : toExcept (parseFloat ttS) with
      | error e => rw [hti, bind_err_eq] at h; exact absurd h (by simp)
      | ok tv =>
      have h9 : 9 ≤ row.length := by
        have := getF_ok_lt htt
        unfold idxTimeTaken at this
        omega
      have hpneq : pnS = row.getD idxProblemNumber emptyStr := by
        rw [getF_ok row idxProblemNumber (getF_ok_lt hpn)] at hpn
        exact (by simpa using hpn.symm)
      have hnaeq : naS = row.getD idxNumberAttempts emptyStr := by
        rw [getF_ok row idxNumberAttempts (getF_ok_lt hna)] at hna
        exact (by simpa using hna.symm)
      have hnheq : nhS = row.getD idxNumberHints emptyStr := by
        rw [getF_ok row idxNumberHints (getF_ok_lt hnh)] at hnh
        exact (by simpa using hnh.symm)
      have htteq : ttS = row.getD idxTimeTaken emptyStr := by
        rw [getF_ok row idxTimeTaken (getF_ok_lt htt)] at htt
        exact (by simpa using htt.symm)
      refine ⟨h9, ?_, ?_, ?_, ?_⟩
      · rw [← hpneq]; exact toExcept_ok_isSome hpi
      · rw [← hnaeq]; exact toExcept_ok_isSome hni
      · rw [← hnheq]; exact toExcept_ok_isSome hhi
      · rw [← htteq]; exact toExcept_ok_isSome hti

lemma buildDictGo_nil (dict : List (String × ℕ)) : buildDictGo dict [] = dict := rfl

lemma buildDictGo_cons (dict : List (String × ℕ)) (k : String) (ks : List String) :
    buildDictGo dict (k :: ks)
      = buildDictGo
          (if (dict.lookup k).isSome then dict else dict ++ [(k, dict.length)])
          ks := rfl

lemma buildDictGo_append (dict : List (String × ℕ)) (ks1 ks2 : List String) :
    buildDictGo dict (ks1 ++ ks2) = buildDictGo (buildDictGo dict ks1) ks2 := by
  unfold buildDictGo
  exact List.foldl_append _ _ _ _

lemma lookup_isSome_iff (dict : List (String × ℕ)) (k : String) :
    (dict.lookup k).isSome = true ↔ k ∈ dict.map Prod.fst := by
  induction dict with
  | nil => simp [List.lookup]
  | cons p ps ih =>
    obtain ⟨a, b⟩ := p
    simp only [List.lookup, List.map_cons, List.mem_cons]
    by_cases hk : k = a
    · subst hk
      simp
    · have hb : (k == a) = false := by simpa using hk
      simp [hb, ih, hk]

lemma mem_of_lookup_eq_some :
    ∀ {dict : List (String × ℕ)} {k : String} {v : ℕ},
      dict.lookup k = some v → (k, v) ∈ dict := by
  intro dict
  induction dict with
  | nil => intro k v h; simp [List.lookup] at h
  | cons p ps ih =>
    intro k v h
    obtain ⟨a, b⟩ := p
    simp only [List.lookup] at h
    by_cases hk : k = a
    · subst hk
      simp only [beq_self_eq_true] at h
      simp only [Option.some.injEq] at h
      simp [h]
    · have hb : (k == a) = false := by simpa using hk
      rw [hb] at h
      simp only [List.mem_cons]
      exact Or.inr (ih h)

/-- Keys are distinct and every assigned index is below the dictionary size. -/
def WellDict (dict : List (String × ℕ)) : Prop :=
  (dict.map Prod.fst).Nodup ∧ ∀ kv ∈ dict, kv.2 < dict.length

lemma WellDict_extend {dict : List (String × ℕ)} {k : String}
    (hw : WellDict dict) (hk : ¬ (dict.lookup k).isSome = true) :
    WellDict (dict ++ [(k, dict.length)]) := by
  have hnotin : k ∉ dict.map Prod.fst := by
    intro hmem
    exact hk ((lookup_isSome_iff dict k).mpr hmem)
  constructor
  · rw [List.map_append]
    refine List.Nodup.append hw.1 (by simp) ?_
    intro a ha hb
    simp only [List.map_cons, List.map_nil, List.mem_singleton] at hb
    subst hb
    exact hnotin ha
  · intro kv hkv
    rw [List.length_append]
    rcases List.mem_append.mp hkv with h1 | h2
    · have := hw.2 kv h1
      simp only [List.length_cons, List.length_nil]
      omega
    · simp only [List.mem_singleton] at h2
      subst h2
      simp

lemma buildDictGo_well : ∀ (ks : List String) (dict : List (String × ℕ)),
    WellDict dict → WellDict (buildDictGo dict ks) := by
  intro ks
  induction ks with
  | nil => intro dict h; exact h
  | cons k ks ih =>
    intro dict h
    rw [buildDictGo_cons]
    by_cases hs : (dict.lookup k).isSome = true
    · rw [if_pos hs]
      exact ih dict h
    · rw [if_neg hs]
      exact ih _ (WellDict_extend h hs)

lemma buildDictGo_extend : ∀ (ks : List String) (dict : List (String × ℕ)),
    ∃ tail, buildDictGo dict ks = dict ++ tail := by
  intro ks
  induction ks with
  | nil => intro dict; exact ⟨[], by simp [buildDictGo_nil]⟩
  | cons k ks ih =>
    intro dict
    rw [buildDictGo_cons]
    by_cases hs : (dict.lookup k).isSome = true
    · rw [if_pos hs]; exact ih dict
    · rw [if_neg hs]
      obtain ⟨tail, htail⟩ := ih (dict ++ [(k, dict.length)])
      exact ⟨[(k, dict.length)] ++ tail, by rw [htail, List.append_assoc]⟩

lemma buildDictGo_length_le (ks : List String) (dict : List (String × ℕ)) :
    dict.length ≤ (buildDictGo dict ks).length := by
  obtain ⟨tail, htail⟩ := buildDictGo_extend ks dict
  rw [htail]
  simp

lemma buildDictGo_keys_mem : ∀ (ks : List String) (dict : List (String × ℕ))
    (k' : String), k' ∈ (buildDictGo dict ks).map Prod.fst
      ↔ (k' ∈ dict.map Prod.fst ∨ k' ∈ ks) := by
  intro ks
  induction ks with
  | nil => intro dict k'; simp [buildDictGo_nil]
  | cons k ks ih =>
    intro dict k'
    rw [buildDictGo_cons]
    by_cases hs : (dict.lookup k).isSome = true
    · rw [if_pos hs, ih]
      have hkmem : k ∈ dict.map Prod.fst := (lookup_isSome_iff dict k).mp hs
      constructor
      · rintro (h | h)
        · exact Or.inl h
        · exact Or.inr (by simp [h])
      · rintro (h | h)
        · exact Or.inl h
        · rcases List.mem_cons.mp h with rfl | h2
          · exact Or.inl hkmem
          · exact Or.inr h2
    · rw [if_neg hs, ih]
      simp only [List.map_append, List.mem_append, List.map_cons, List.map_nil,
        List.mem_singleton, List.mem_cons]
      constructor
      · rintro (⟨h | h⟩ | h)
        · exact Or.inl h
        · simp only [List.not_mem_nil, or_false] at h
          exact Or.inr (Or.inl h)
        · exact Or.inr (Or.inr h)
      · rintro (h | h | h)
        · exact Or.inl (Or.inl h)
        · exact Or.inl (Or.inr (by simp [h]))
        · exact Or.inr h

lemma buildDictGo_absorb : ∀ (ks : List String) (dict : List (String × ℕ)),
    (∀ k ∈ ks, (dict.lookup k).isSome = true) → buildDictGo dict ks = dict := by
  intro ks
  induction ks with
  | nil => intro dict _; rfl
  | cons k ks ih =>
    intro dict h
    rw [buildDictGo_cons, if_pos (h k (by simp))]
    exact ih dict (fun k2 hk2 => h k2 (by simp [hk2]))

lemma buildDict_append (ks1 ks2 : List String) :
    buildDict (ks1 ++ ks2) = buildDictGo (buildDict ks1) ks2 :=
  buildDictGo_append [] ks1 ks2

lemma buildDictGo_sub_absorb (s t : List String) (hsub : ∀ k ∈ t, k ∈ s) :
    buildDictGo (buildDict s) t = buildDict s := by
  refine buildDictGo_absorb t _ (fun k hk => ?_)
  rw [lookup_isSome_iff]
  unfold buildDict
  rw [buildDictGo_keys_mem]
  exact Or.inr (hsub k hk)

lemma buildDict_length (ks : List String) :
    (buildDict ks).length = ks.dedup.length := by
  have hwell : WellDict (buildDict ks) :=
    buildDictGo_well ks [] ⟨by simp, by simp⟩
  have hkeys : ∀ k', k' ∈ (buildDict ks).map Prod.fst ↔ k' ∈ ks := by
    intro k'
    unfold buildDict
    rw [buildDictGo_keys_mem]
    simp
  have h1 : (buildDict ks).length = ((buildDict ks).map Prod.fst).length := by simp
  rw [h1, ← List.toFinset_card_of_nodup hwell.1, ← List.card_toFinset]
  congr 1
  ext a
  simp [hkeys a]

lemma assignInds_spec : ∀ (es : List String) (dict : List (String × ℕ)) (n : ℕ),
    n = dict.length → (∀ kv ∈ dict, kv.2 < n) →
    (assignInds dict n es).1 = buildDictGo dict es
    ∧ (assignInds dict n es).2.1 = (buildDictGo dict es).length
    ∧ ∀ i ∈ (assignInds dict n es).2.2, i < (buildDictGo dict es).length := by
  intro es
  induction es with
  | nil =>
    intro dict n hn _
    refine ⟨rfl, ?_, by simp [assignInds]⟩
    rw [buildDictGo_nil]
    exact hn
  | cons e es ih =>
    intro dict n hn hv
    cases hlk : dict.lookup e with
    | some v =>
      have hGo : buildDictGo dict (e :: es) = buildDictGo dict es := by
        rw [buildDictGo_cons, if_pos (by simp [hlk])]
      have hrec := ih dict n hn hv
      have hv2 : v < n := hv (e, v) (mem_of_lookup_eq_some hlk)
      simp only [assignInds, hlk]
      refine ⟨by rw [hGo]; exact hrec.1, by rw [hGo]; exact hrec.2.1, ?_⟩
      intro i hi
      rw [hGo]
      rcases List.mem_cons.mp hi with rfl | hi2
      · calc i < n := hv2
          _ = dict.length := hn
          _ ≤ (buildDictGo dict es).length := buildDictGo_length_le es dict
      · exact hrec.2.2 i hi2
    | none =>
      subst hn
      have hGo : buildDictGo dict (e :: es)
          = buildDictGo (dict ++ [(e, dict.length)]) es := by
        rw [buildDictGo_cons, if_neg (by simp [hlk])]
      have hrec := ih (dict ++ [(e, dict.length)]) (dict.length + 1)
        (by simp)
        (by
          intro kv hkv
          rcases List.mem_append.mp hkv with h1 | h2
          · have := hv kv h1; omega
          · simp only [List.mem_singleton] at h2
            subst h2
            simp)
      simp only [assignInds, hlk]
      refine ⟨by rw [hGo]; exact hrec.1, by rw [hGo]; exact hrec.2.1, ?_⟩
      intro i hi
      rw [hGo]
      rcases List.mem_cons.mp hi with rfl | hi2
      · calc dict.length < (dict ++ [(e, dict.length)]).length := by simp
          _ ≤ _ := buildDictGo_length_le es _
      · exact hrec.2.2 i hi2

/-- The exercise identifiers buffered in the attempts list. -/
def attemptsExs (st : IngestSt) : List String :=
  st.attempts.map (fun a => a.exercise)

/-- The running invariant of the ingestion loop: the counter equals the
dictionary size, the dictionary is well formed, all stored exercise indices
are in range, and the dictionary is the first-seen assignment over the
problem-log exercises flushed so far, with the pending attempts accounting
for the rest of the processed prefix `done`. -/
def DictInv (st : IngestSt) (done : List String) : Prop :=
  st.nextInd = st.dict.length
  ∧ WellDict st.dict
  ∧ (∀ us ∈ st.userStates, ∀ i ∈ us.exercises_ind, i < st.nextInd)
  ∧ (∃ D, st.dict = buildDict D)
  ∧ buildDictGo st.dict (attemptsExs st) = buildDict done

lemma createUserState_dict (d : ℕ) (atts : List Attempt)
    (dict : List (String × ℕ)) (n : ℕ) (hn : n = dict.length)
    (hv : ∀ kv ∈ dict, kv.2 < n) :
    (createUserState d atts dict n).2.1
        = buildDictGo dict (atts.map (fun a => a.exercise))
    ∧ (createUserState d atts dict n).2.2
        = (buildDictGo dict (atts.map (fun a => a.exercise))).length
    ∧ ∀ i ∈ (createUserState d atts dict n).1.exercises_ind,
        i < (buildDictGo dict (atts.map (fun a => a.exercise))).length := by
  have h := assignInds_spec (atts.map (fun a => a.exercise)) dict n hn hv
  exact ⟨h.1, h.2.1, h.2.2⟩

lemma flushSt_inv {d : ℕ} {st : IngestSt} {done : List String}
    (hinv : DictInv st done) :
    DictInv (flushSt d st) done
    ∧ (flushSt d st).dict = buildDict done
    ∧ st.nextInd ≤ (flushSt d st).nextInd := by
  obtain ⟨hn, hw, hus, ⟨D, hD⟩, hgo⟩ := hinv
  have hv : ∀ kv ∈ st.dict, kv.2 < st.nextInd := by
    intro kv hkv
    rw [hn]
    exact hw.2 kv hkv
  have hc := createUserState_dict d st.attempts st.dict st.nextInd hn hv
  unfold attemptsExs at hgo
  have hdict : (flushSt d st).dict = buildDict done := by
    show (createUserState d st.attempts st.dict st.nextInd).2.1 = buildDict done
    rw [hc.1]
    exact hgo
  have hnext : (flushSt d st).nextInd = (buildDict done).length := by
    show (createUserState d st.attempts st.dict st.nextInd).2.2
      = (buildDict done).length
    rw [hc.2.1, hgo]
  have hmono : st.nextInd ≤ (flushSt d st).nextInd := by
    rw [hnext, ← hgo, hn]
    exact buildDictGo_length_le _ _
  refine ⟨⟨?_, ?_, ?_, ?_, ?_⟩, hdict, hmono⟩
  · rw [hdict, hnext]
  · rw [hdict, ← hgo, hD]
    exact buildDictGo_well _ _ (buildDictGo_well _ _ ⟨by simp, by simp⟩)
  · intro us hus2 i hi
    have hus3 : us ∈ st.userStates
        ++ [(createUserState d st.attempts st.dict st.nextInd).1] := hus2
    rcases List.mem_append.mp hus3 with h1 | h2
    · have hlt := hus us h1 i hi
      calc i < st.nextInd := hlt
        _ ≤ _ := hmono
    · simp only [List.mem_singleton] at h2
      subst h2
      have hlt := hc.2.2 i hi
      show i < (createUserState d st.attempts st.dict st.nextInd).2.2
      rw [hc.2.1]
      exact hlt
  · exact ⟨done, hdict⟩
  · have hatt : attemptsExs (flushSt d st) = [] := rfl
    rw [hatt, buildDictGo_nil, hdict]

lemma endFlush_inv {d : ℕ} {st : IngestSt} {done : List String}
    (hinv : DictInv st done) :
    DictInv (endFlush d st) done
    ∧ (endFlush d st).dict = buildDict done := by
  obtain ⟨hn, hw, hus, ⟨D, hD⟩, hgo⟩ := hinv
  unfold endFlush
  by_cases hemp : st.attempts = []
  · rw [if_pos hemp]
    have hgo2 := hgo
    unfold attemptsExs at hgo2
    rw [hemp] at hgo2
    have hd : st.dict = buildDict done := by
      simpa [buildDictGo_nil] using hgo2
    exact ⟨⟨hn, hw, hus, ⟨D, hD⟩, hgo⟩, hd⟩
  · rw [if_neg hemp]
    have hv : ∀ kv ∈ st.dict, kv.2 < st.nextInd := by
      intro kv hkv
      rw [hn]
      exact hw.2 kv hkv
    have hc := createUserState_dict d st.attempts st.dict st.nextInd hn hv
    unfold attemptsExs at hgo
    have hdict2 : (createUserState d st.attempts st.dict st.nextInd).2.1
        = buildDict done := by
      rw [hc.1]
      exact hgo
    have hmono : st.nextInd
        ≤ (createUserState d st.attempts st.dict st.nextInd).2.2 := by
      rw [hc.2.1, hn]
      exact buildDictGo_length_le _ _
    refine ⟨⟨?_, ?_, ?_, ?_, ?_⟩, ?_⟩
    · show (createUserState d st.attempts st.dict st.nextInd).2.2
        = (createUserState d st.attempts st.dict st.nextInd).2.1.length
      rw [hc.2.1, hc.1]
    · show WellDict (createUserState d st.attempts st.dict st.nextInd).2.1
      rw [hdict2, ← hgo, hD]
      exact buildDictGo_well _ _ (buildDictGo_well _ _ ⟨by simp, by simp⟩)
    · intro us hus2 i hi
      have hus3 : us ∈ st.userStates
          ++ [(createUserState d st.attempts st.dict st.nextInd).1] := hus2
      show i < (createUserState d st.attempts st.dict st.nextInd).2.2
      rcases List.mem_append.mp hus3 with h1 | h2
      · have hlt := hus us h1 i hi
        calc i < st.nextInd := hlt
          _ ≤ _ := hmono
      · simp only [List.mem_singleton] at h2
        subst h2
        have hlt := hc.2.2 i hi
        rw [hc.2.1]
        exact hlt
    · exact ⟨done, hdict2⟩
    · show buildDictGo (createUserState d st.attempts st.dict st.nextInd).2.1
        (st.attempts.map (fun a => a.exercise)) = buildDict done
      rw [hdict2]
      refine buildDictGo_absorb _ _ (fun k hk => ?_)
      rw [lookup_isSome_iff, hdict2.symm, hc.1, buildDictGo_keys_mem]
      exact Or.inr hk
    · exact hdict2

/-- The exercise identifiers a single row contributes to the retained
problem-log stream. -/
def rowExs (row : List String) : List String :=
  if isPlogRow row then [row.getD idxExercise emptyStr] else []

lemma rowExs_plog {row : List String} (h : isPlogRow row = true) :
    rowExs row = [row.getD idxExercise emptyStr] := by
  unfold rowExs
  rw [h]
  rfl

lemma rowExs_nonplog {row : List String} (h : isPlogRow row = false) :
    rowExs row = [] := by
  unfold rowExs
  rw [h]
  rfl

lemma plogExercises_cons (r : List String) (rows : List (List String)) :
    plogExercises (r :: rows) = rowExs r ++ plogExercises rows := by
  unfold plogExercises rowExs
  rw [List.filter_cons]
  cases h : isPlogRow r
  · simp
  · simp

lemma stepUser_inv {d : ℕ} {st : IngestSt} {u : String} {done : List String}
    (hinv : DictInv st done) :
    DictInv (stepUser d st u) done ∧ st.nextInd ≤ (stepUser d st u).nextInd := by
  unfold stepUser
  by_cases hcond : some u ≠ st.prevUser ∧ st.attempts ≠ []
  · rw [if_pos hcond]
    have h := flushSt_inv (d := d) hinv
    exact ⟨h.1, h.2.2⟩
  · rw [if_neg hcond]
    exact ⟨hinv, le_refl _⟩

lemma processRow_inv {d : ℕ} {st : IngestSt} {row : List String}
    {st2 : IngestSt} {done : List String}
    (h : processRow d st row = Except.ok st2) (hinv : DictInv st done) :
    DictInv st2 (done ++ rowExs row) ∧ st.nextInd ≤ st2.nextInd := by
  have hg := processRow_ok_good h
  have hstep := stepUser_inv (d := d) (u := userOf row) hinv
  by_cases ht : row.getD idxRowtype emptyStr = plogTag
  · rw [processRow_plog d st row hg ht] at h
    have hplogb : isPlogRow row = true := by
      unfold isPlogRow
      simp only [beq_iff_eq]
      exact ht
    injection h with h2
    subst h2
    rw [rowExs_plog hplogb]
    obtain ⟨hn, hw, hus, ⟨D, hD⟩, hgo⟩ := hstep.1
    refine ⟨⟨hn, hw, hus, ⟨D, hD⟩, ?_⟩, hstep.2⟩
    have hatt : attemptsExs
        { stepUser d st (userOf row) with
          attempts := (stepUser d st (userOf row)).attempts ++ [attemptOfRow row] }
        = attemptsExs (stepUser d st (userOf row))
          ++ [row.getD idxExercise emptyStr] := by
      unfold attemptsExs attemptOfRow
      simp
    show buildDictGo (stepUser d st (userOf row)).dict _ = _
    rw [hatt, buildDictGo_append, hgo, ← buildDict_append]
  · rw [processRow_nonplog d st row hg.1 ht] at h
    injection h with h2
    subst h2
    have hplogb : isPlogRow row = false := by
      unfold isPlogRow
      simp only [beq_eq_false_iff_ne, ne_eq]
      exact ht
    rw [rowExs_nonplog hplogb, List.append_nil]
    exact hstep

lemma foldlM_inv (d : ℕ) : ∀ (rows : List (List String)) (st st2 : IngestSt)
    (done : List String),
    rows.foldlM (processRow d) st = Except.ok st2 → DictInv st done →
    DictInv st2 (done ++ plogExercises rows) := by
  intro rows
  induction rows with
  | nil =>
    intro st st2 done h hinv
    simp only [List.foldlM_nil] at h
    have h2 : st = st2 := Except.ok.inj h
    subst h2
    simpa [plogExercises] using hinv
  | cons r rows ih =>
    intro st st2 done h hinv
    rw [List.foldlM_cons] at h
    cases hp : processRow d st r with
    | error e => rw [hp, bind_err_eq] at h; exact absurd h (by simp)
    | ok mid =>
      rw [hp, bind_ok_eq] at h
      have hm := processRow_inv hp hinv
      have hrec := ih mid st2 _ h hm.1
      rw [plogExercises_cons, ← List.append_assoc]
      exact hrec

lemma ingestReplica_inv {d : ℕ} {rows : List (List String)} {st st2 : IngestSt}
    {done : List String}
    (h : ingestReplica d rows st = Except.ok st2) (hinv : DictInv st done) :
    DictInv st2 (done ++ plogExercises rows)
    ∧ st2.dict = buildDict (done ++ plogExercises rows) := by
  unfold ingestReplica at h
  cases hf : rows.foldlM (processRow d) st with
  | error e => rw [hf, bind_err_eq] at h; exact absurd h (by simp)
  | ok mid =>
    rw [hf, bind_ok_eq] at h
    have hmid := foldlM_inv d rows st mid done hf hinv
    have hend := endFlush_inv (d := d) hmid
    have h2 : st2 = endFlush d mid := by
      have : Except.ok (endFlush d mid) = (Except.ok st2 : Except String IngestSt) := h
      simpa using this.symm
    subst h2
    exact hend

lemma ingestIter_keep (d : ℕ) (rows : List (List String)) :
    ∀ (k : ℕ) (st st2 : IngestSt),
    ingestIter d rows k st = Except.ok st2 →
    ∀ done, DictInv st done → st.dict = buildDict done →
      buildDict done = buildDict (plogExercises rows) →
      ∃ done2, DictInv st2 done2 ∧ st2.dict = buildDict done2
        ∧ buildDict done2 = buildDict (plogExercises rows) := by
  intro k
  induction k with
  | zero =>
    intro st st2 h done hi hd hb
    have h2 : st = st2 := by
      unfold ingestIter at h
      exact Except.ok.inj h
    subst h2
    exact ⟨done, hi, hd, hb⟩
  | succ k ih =>
    intro st st2 h done hi hd hb
    unfold ingestIter at h
    cases hr : ingestReplica d rows st with
    | error e => rw [hr, bind_err_eq] at h; exact absurd h (by simp)
    | ok mid =>
      rw [hr, bind_ok_eq] at h
      have h1 := ingestReplica_inv hr hi
      refine ih mid st2 h (done ++ plogExercises rows) h1.1 h1.2 ?_
      rw [buildDict_append, hb]
      exact buildDictGo_sub_absorb _ _ (fun k2 hk2 => hk2)

/-- Dictionary-level characterization of a successful run: after at least one
replica, the exercise dictionary is exactly the first-seen assignment over
the problem-log exercise stream of one input pass (replicas change nothing),
the counter equals its size, keys are distinct, indices are in range, and
every stored exercise index of every user state is below the counter. -/
lemma ingest_char {d reps : ℕ} {rows : List (List String)} {st : IngestSt}
    (hreps : 1 ≤ reps) (h : ingest d rows reps = Except.ok st) :
    st.dict = buildDict (plogExercises rows)
    ∧ st.nextInd = st.dict.length
    ∧ WellDict st.dict
    ∧ ∀ us ∈ st.userStates, ∀ i ∈ us.exercises_ind, i < st.nextInd := by
  obtain ⟨k, rfl⟩ : ∃ k, reps = k + 1 := ⟨reps - 1, by omega⟩
  unfold ingest at h
  unfold ingestIter at h
  cases hr : ingestReplica d rows initIngestSt with
  | error e => rw [hr, bind_err_eq] at h; exact absurd h (by simp)
  | ok mid =>
    rw [hr, bind_ok_eq] at h
    have hinit : DictInv initIngestSt [] := by
      refine ⟨rfl, ⟨by simp [initIngestSt], by simp [initIngestSt]⟩,
        by simp [initIngestSt], ⟨[], rfl⟩, rfl⟩
    have h1 := ingestReplica_inv hr hinit
    rw [List.nil_append] at h1
    obtain ⟨done2, hinv2, hd2, hb2⟩ :=
      ingestIter_keep d rows k mid st h (plogExercises rows) h1.1 h1.2 rfl
    obtain ⟨hn, hw, hus, _, _⟩ := hinv2
    exact ⟨by rw [hd2, hb2], hn, hw, hus⟩

/-- C6 (amended): after successful ingestion with at least one replica and at
most `MAX_EXERCISES` distinct observed exercise identifiers, the trimmed
coupling matrix has exactly one row per distinct exercise identifier observed
in problem-attempt rows, every exercise index stored in any user state is
strictly below the row count, and the exercise dictionary is exactly the
first-seen assignment over a single pass of the input — so replicas of the
input assign identical indices — with pairwise-distinct keys. -/
theorem c6_index_invariants (d reps : ℕ) (rows : List (List String))
    (st : IngestSt) (hreps : 1 ≤ reps)
    (hok : ingest d rows reps = Except.ok st)
    (hsmall : st.nextInd ≤ MAX_EXERCISES) :
    (trimmedCouplings d st).length = (plogExercises rows).dedup.length
    ∧ (∀ us ∈ st.userStates, ∀ i ∈ us.exercises_ind,
        i < (trimmedCouplings d st).length)
    ∧ st.dict = buildDict (plogExercises rows)
    ∧ (st.dict.map Prod.fst).Nodup := by
  obtain ⟨hdict, hn, hw, hus⟩ := ingest_char hreps hok
  have htrim : (trimmedCouplings d st).length = st.nextInd := by
    unfold trimmedCouplings
    rw [List.length_replicate]
    omega
  refine ⟨?_, ?_, hdict, hw.1⟩
  · rw [htrim, hn, hdict, buildDict_length]
  · intro us hus2 i hi
    rw [htrim]
    exact hus us hus2 i hi

/-- User identifier used in concrete ingestion inputs. -/
def sUserA : String := "A"

/-- Second user identifier used in concrete ingestion inputs. -/
def sUserB : String := "B"

/-- Exercise identifier used in concrete ingestion inputs. -/
def sEx1 : String := "e1"

/-- Second exercise identifier used in concrete ingestion inputs. -/
def sEx2 : String := "e2"

/-- A non-problemlog row type used in concrete ingestion inputs. -/
def sOther : String := "other"

/-- Numeric field literals used in concrete ingestion inputs. -/
def sOne : String := "1"

/-- Zero literal used in concrete ingestion inputs. -/
def sZero : String := "0"

/-- Float literal used in concrete ingestion inputs. -/
def sOnePointZero : String := "1.0"

/-- An unparseable numeric literal. -/
def sBadInt : String := "x"

/-- An unparseable boolean literal (anything other than `true`). -/
def sBadBool : String := "bananas"

/-- A well-formed problem-log row for the C6 witness. -/
def rowC6w : List String :=
  [sUserA, plogTag, sEx1, trueTag, trueTag, sOne, sOne, sZero, sOnePointZero]

/-- The ingestion state after the C6 witness input. -/
def stC6w : IngestSt :=
  ⟨[⟨[1], [0], [0]⟩], [(sEx1, 0)], 1, some sUserA, [⟨true, sEx1⟩]⟩

theorem c6_witness :
    (1 ≤ 1 ∧ ingest 1 [rowC6w] 1 = Except.ok stC6w
      ∧ stC6w.nextInd ≤ MAX_EXERCISES) ∧
    ((trimmedCouplings 1 stC6w).length = (plogExercises [rowC6w]).dedup.length
      ∧ (∀ us ∈ stC6w.userStates, ∀ i ∈ us.exercises_ind,
          i < (trimmedCouplings 1 stC6w).length)
      ∧ stC6w.dict = buildDict (plogExercises [rowC6w])
      ∧ (stC6w.dict.map Prod.fst).Nodup) :=
  ⟨⟨le_refl 1, by rfl, by decide⟩,
   c6_index_invariants 1 1 [rowC6w] stC6w (le_refl 1) (by rfl) (by decide)⟩

lemma foldlM_good_ok (d : ℕ) : ∀ (rows : List (List String)) (st : IngestSt),
    (∀ r ∈ rows, GoodRow r) →
    ∃ st2, rows.foldlM (processRow d) st = Except.ok st2 := by
  intro rows
  induction rows with
  | nil =>
    intro st _
    exact ⟨st, by simp only [List.foldlM_nil]; rfl⟩
  | cons r rows ih =>
    intro st hg
    have hgr := hg r (by simp)
    by_cases ht : r.getD idxRowtype emptyStr = plogTag
    · have hp := processRow_plog d st r hgr ht
      obtain ⟨st3, h3⟩ := ih
        { stepUser d st (userOf r) with
          attempts := (stepUser d st (userOf r)).attempts ++ [attemptOfRow r] }
        (fun x hx => hg x (by simp [hx]))
      exact ⟨st3, by rw [List.foldlM_cons, hp, bind_ok_eq]; exact h3⟩
    · have hp := processRow_nonplog d st r hgr.1 ht
      obtain ⟨st3, h3⟩ := ih (stepUser d st (userOf r))
        (fun x hx => hg x (by simp [hx]))
      exact ⟨st3, by rw [List.foldlM_cons, hp, bind_ok_eq]; exact h3⟩

lemma ingest_good_ok (d : ℕ) (rows : List (List String))
    (hg : ∀ r ∈ rows, GoodRow r) :
    ∃ st, ingest d rows 1 = Except.ok st := by
  obtain ⟨st2, h2⟩ := foldlM_good_ok d rows initIngestSt hg
  refine ⟨endFlush d st2, ?_⟩
  unfold ingest ingestIter ingestReplica
  rw [h2, bind_ok_eq]
  rfl

/-- Distinct exercise names: the unary strings `a…a`. -/
def exName (i : ℕ) : String := String.mk (List.replicate i 'a')

lemma exName_length (i : ℕ) : (exName i).length = i := by
  unfold exName
  show (List.replicate i 'a').length = i
  exact List.length_replicate _ _

/-- One problem-log row per exercise, all for the same user. -/
def c6Row (i : ℕ) : List String :=
  [sUserA, plogTag, exName i, trueTag, trueTag, sOne, sOne, sZero, sOnePointZero]

/-- An input with 10001 distinct exercise identifiers. -/
def c6Rows : List (List String) := (List.range 10001).map c6Row

lemma c6Row_length (i : ℕ) : (c6Row i).length = 9 := rfl

lemma c6Row_good (i : ℕ) : GoodRow (c6Row i) :=
  ⟨by rw [c6Row_length i]; omega,
   fun _ => ⟨by rw [c6Row_length i], by rfl, by rfl, by rfl, by rfl⟩⟩

lemma c6Rows_good : ∀ r ∈ c6Rows, GoodRow r := by
  intro r hr
  simp only [c6Rows, List.mem_map] at hr
  obtain ⟨i, _, rfl⟩ := hr
  exact c6Row_good i

lemma c6Rows_plogExercises :
    plogExercises c6Rows = (List.range 10001).map exName := by
  unfold plogExercises c6Rows
  have hfil : ((List.range 10001).map c6Row).filter (fun r => isPlogRow r)
      = (List.range 10001).map c6Row := by
    rw [List.filter_eq_self]
    intro a ha
    simp only [List.mem_map] at ha
    obtain ⟨i, _, rfl⟩ := ha
    rfl
  rw [hfil, List.map_map]
  rfl

/-- C6 counterexample: with 10001 distinct exercise identifiers, ingestion
succeeds but the trimmed coupling matrix is clamped to `MAX_EXERCISES = 10000`
rows — one fewer than the number of distinct exercise identifiers observed,
so the trimmed matrix does NOT have one row per distinct identifier, and the
index 10000 stored for the last exercise is not below the row count. -/
theorem c6_counterexample :
    (ingest 1 c6Rows 1).map (fun st => (trimmedCouplings 1 st).length)
      = Except.ok 10000
    ∧ (plogExercises c6Rows).dedup.length = 10001
    ∧ (10000 : ℕ) ≠ 10001 := by
  obtain ⟨st, hok⟩ := ingest_good_ok 1 c6Rows c6Rows_good
  obtain ⟨hdict, hn, _, _⟩ := ingest_char (le_refl 1) hok
  have hnodup : ((List.range 10001).map exName).Nodup := by
    refine List.Nodup.map ?_ (List.nodup_range _)
    intro i j hij
    have hlen := congrArg String.length hij
    rwa [exName_length, exName_length] at hlen
  have hded : (plogExercises c6Rows).dedup.length = 10001 := by
    rw [c6Rows_plogExercises, List.dedup_eq_self.mpr hnodup]
    simp
  have hni : st.nextInd = 10001 := by
    rw [hn, hdict, buildDict_length, hded]
  refine ⟨?_, hded, by decide⟩
  rw [hok]
  show Except.ok (trimmedCouplings 1 st).length = Except.ok 10000
  unfold trimmedCouplings
  rw [List.length_replicate, hni]
  rfl

/-- Whether an `Except` value is a success. -/
def isOkE {ε α : Type} : Except ε α → Bool
  | Except.ok _ => true
  | Except.error _ => false

lemma good_not_bad {r : List String} (hg : GoodRow r) (hb : BadPlogRow r) :
    False := by
  obtain ⟨h9, hpn, hna, hnh, htt⟩ := hg.2 hb.1
  rcases hb.2 with h | h | h | h | h
  · omega
  · rw [h] at hpn; exact absurd hpn (by simp)
  · rw [h] at hna; exact absurd hna (by simp)
  · rw [h] at hnh; exact absurd hnh (by simp)
  · rw [h] at htt; exact absurd htt (by simp)

lemma foldlM_bad (d : ℕ) : ∀ (rows : List (List String)) (st : IngestSt)
    (r : List String), r ∈ rows → BadPlogRow r →
    isOkE (rows.foldlM (processRow d) st) = false := by
  intro rows
  induction rows with
  | nil => intro st r hr; simp at hr
  | cons x xs ih =>
    intro st r hr hb
    rw [List.foldlM_cons]
    cases hp : processRow d st x with
    | error e => rw [bind_err_eq]; rfl
    | ok mid =>
      rw [bind_ok_eq]
      rcases List.mem_cons.mp hr with rfl | hr2
      · exact absurd (processRow_ok_good hp) (fun hg => good_not_bad hg hb)
      · exact ih mid r hr2 hb

/-- C8 (amended): every malformed problem-attempt record — one with too few
fields, or with an unparseable numeric field — aborts the whole ingestion run
with an error and no partial recovery.  (An unrecognized correctness flag is
NOT an error: the code compares it with `'true'` and silently reads anything
else as incorrect; see the counterexample.) -/
theorem c8_malformed_fatal (d : ℕ) (rows : List (List String)) (reps : ℕ)
    (hreps : 1 ≤ reps) (r : List String) (hr : r ∈ rows)
    (hbad : BadPlogRow r) :
    isOkE (ingest d rows reps) = false := by
  obtain ⟨k, rfl⟩ : ∃ k, reps = k + 1 := ⟨reps - 1, by omega⟩
  unfold ingest ingestIter ingestReplica
  have hf := foldlM_bad d rows initIngestSt r hr hbad
  cases hff : rows.foldlM (processRow d) initIngestSt with
  | error e =>
    rw [bind_err_eq, bind_err_eq]
    rfl
  | ok mid =>
    rw [hff] at hf
    exact absurd hf (by simp [isOkE])

/-- A problem-log row with an unparseable problem-number field. -/
def rowC8w : List String :=
  [sUserA, plogTag, sEx1, trueTag, trueTag, sBadInt, sOne, sZero, sOnePointZero]

theorem c8_witness :
    (1 ≤ 1 ∧ rowC8w ∈ [rowC8w] ∧ BadPlogRow rowC8w) ∧
    isOkE (ingest 1 [rowC8w] 1) = false :=
  ⟨⟨le_refl 1, by simp, by decide⟩,
   c8_malformed_fatal 1 [rowC8w] 1 (le_refl 1) rowC8w (by simp) (by decide)⟩

/-- A problem-log row whose correctness flag is not a boolean literal. -/
def rowC8c : List String :=
  [sUserA, plogTag, sEx1, sBadBool, trueTag, sOne, sOne, sZero, sOnePointZero]

/-- C8 counterexample: a record whose correctness field is the unparseable
string `bananas` is NOT a fatal error — ingestion succeeds and silently
records the attempt as incorrect (correctness 0), because the code only
compares the field against the literal `'true'`. -/
theorem c8_counterexample :
    (ingest 1 [rowC8c] 1).map (fun st => st.userStates.map (fun us => us.correct))
      = Except.ok [[0]]
    ∧ isOkE (ingest 1 [rowC8c] 1) = true := by
  constructor
  · rfl
  · rfl

lemma IngestSt_eq_of_fields {a b : IngestSt}
    (h1 : a.userStates = b.userStates) (h2 : a.dict = b.dict)
    (h3 : a.nextInd = b.nextInd) (h4 : a.prevUser = b.prevUser)
    (h5 : a.attempts = b.attempts) : a = b := by
  cases a
  cases b
  simp_all

lemma runAttempts_nil : runAttempts [] = [] := rfl

lemma runAttempts_cons (r : List String) (run : List (List String)) :
    runAttempts (r :: run)
      = (if isPlogRow r then [attemptOfRow r] else []) ++ runAttempts run := by
  unfold runAttempts
  rw [List.filterMap_cons]
  cases h : isPlogRow r
  · simp [h]
  · simp [h]

lemma foldlM_sameuser (d : ℕ) (u : String) :
    ∀ (run : List (List String)) (st : IngestSt),
    (∀ x ∈ run, GoodRow x) → (∀ x ∈ run, userOf x = u) →
    st.prevUser = some u →
    run.foldlM (processRow d) st
      = Except.ok { st with attempts := st.attempts ++ runAttempts run } := by
  intro run
  induction run with
  | nil =>
    intro st _ _ _
    simp only [List.foldlM_nil, runAttempts_nil, List.append_nil]
    rw [show ({ st with attempts := st.attempts } : IngestSt) = st by
      cases st; rfl]
    rfl
  | cons r run ih =>
    intro st hg hu hprev
    rw [List.foldlM_cons]
    have huser : userOf r = u := hu r (by simp)
    have hstep : stepUser d st (userOf r) = st := by
      unfold stepUser
      rw [if_neg (by rw [huser, hprev]; simp)]
      rw [huser]
      cases st
      simp_all
    by_cases ht : r.getD idxRowtype emptyStr = plogTag
    · have hplogb : isPlogRow r = true := by
        unfold isPlogRow
        simp only [beq_iff_eq]
        exact ht
      rw [processRow_plog d st r (hg r (by simp)) ht, bind_ok_eq, hstep]
      rw [ih { st with attempts := st.attempts ++ [attemptOfRow r] }
        (fun x hx => hg x (by simp [hx])) (fun x hx => hu x (by simp [hx])) hprev]
      refine congrArg Except.ok (IngestSt_eq_of_fields rfl rfl rfl rfl ?_)
      show (st.attempts ++ [attemptOfRow r]) ++ runAttempts run
        = st.attempts ++ runAttempts (r :: run)
      rw [runAttempts_cons, hplogb, if_pos rfl, List.append_assoc]
    · have hplogb : isPlogRow r = false := by
        unfold isPlogRow
        simp only [beq_eq_false_iff_ne, ne_eq]
        exact ht
      rw [processRow_nonplog d st r (hg r (by simp)).1 ht, bind_ok_eq, hstep]
      rw [ih st (fun x hx => hg x (by simp [hx]))
        (fun x hx => hu x (by simp [hx])) hprev]
      refine congrArg Except.ok (IngestSt_eq_of_fields rfl rfl rfl rfl ?_)
      show st.attempts ++ runAttempts run = st.attempts ++ runAttempts (r :: run)
      rw [runAttempts_cons, hplogb]
      simp

lemma foldlM_run_start (d : ℕ) (u : String) (run : List (List String))
    (st : IngestSt) (hne : run ≠ []) (hg : ∀ x ∈ run, GoodRow x)
    (hu : ∀ x ∈ run, userOf x = u) (hatt : st.attempts = []) :
    run.foldlM (processRow d) st
      = Except.ok { st with prevUser := some u, attempts := runAttempts run } := by
  cases run with
  | nil => exact absurd rfl hne
  | cons r rs =>
    have hu0 : userOf r = u := hu r (by simp)
    rw [List.foldlM_cons]
    have hstep0 : stepUser d st (userOf r)
        = { st with prevUser := some (userOf r) } := by
      unfold stepUser
      rw [if_neg (by intro hc; exact hc.2 hatt)]
    by_cases ht : r.getD idxRowtype emptyStr = plogTag
    · have hplogb : isPlogRow r = true := by
        unfold isPlogRow
        simp only [beq_iff_eq]
        exact ht
      rw [processRow_plog d st r (hg r (by simp)) ht, bind_ok_eq, hstep0]
      rw [foldlM_sameuser d u rs _
        (fun x hx => hg x (by simp [hx])) (fun x hx => hu x (by simp [hx]))
        (by rw [hu0])]
      refine congrArg Except.ok (IngestSt_eq_of_fields rfl rfl rfl ?_ ?_)
      · show some (userOf r) = some u
        rw [hu0]
      · show (st.attempts ++ [attemptOfRow r]) ++ runAttempts rs
          = runAttempts (r :: rs)
        rw [hatt, runAttempts_cons, hplogb, if_pos rfl]
        simp
    · have hplogb : isPlogRow r = false := by
        unfold isPlogRow
        simp only [beq_eq_false_iff_ne, ne_eq]
        exact ht
      rw [processRow_nonplog d st r (hg r (by simp)).1 ht, bind_ok_eq, hstep0]
      rw [foldlM_sameuser d u rs _
        (fun x hx => hg x (by simp [hx])) (fun x hx => hu x (by simp [hx]))
        (by rw [hu0])]
      refine congrArg Except.ok (IngestSt_eq_of_fields rfl rfl rfl ?_ ?_)
      · show some (userOf r) = some u
        rw [hu0]
      · show st.attempts ++ runAttempts rs = runAttempts (r :: rs)
        rw [hatt, runAttempts_cons, hplogb]
        simp

lemma processRow_flush_pre (d : ℕ) (st : IngestSt) (row : List String)
    (hcond : some (userOf row) ≠ st.prevUser ∧ st.attempts ≠ []) :
    processRow d st row = processRow d (flushSt d st) row := by
  unfold processRow
  cases hg : getF row idxUser with
  | error e => rfl
  | ok v =>
    have hv : v = userOf row := by
      rw [getF_ok row idxUser (getF_ok_lt hg)] at hg
      unfold userOf
      exact (Except.ok.inj hg).symm
    subst hv
    rw [bind_ok_eq, bind_ok_eq]
    have hsu : stepUser d st (userOf row)
        = stepUser d (flushSt d st) (userOf row) := by
      unfold stepUser
      rw [if_pos hcond]
      rw [if_neg (by
        intro hc
        exact hc.2 (by rfl))]
    rw [hsu]

lemma dropWhile_head_false {α : Type} (p : α → Bool) :
    ∀ (l : List α) (x : α) (xs : List α),
      l.dropWhile p = x :: xs → p x = false := by
  intro l
  induction l with
  | nil => intro x xs h; simp at h
  | cons y ys ih =>
    intro x xs h
    rw [List.dropWhile_cons] at h
    by_cases hy : p y = true
    · rw [if_pos hy] at h
      exact ih x xs h
    · rw [if_neg hy] at h
      injection h with h1 h2
      subst h1
      simpa using hy

lemma userRuns_nil : userRuns [] = [] := by
  rw [userRuns]

lemma userRuns_cons (r : List String) (rs : List (List String)) :
    userRuns (r :: rs)
      = (r :: rs.takeWhile (fun x => userOf x == userOf r))
        :: userRuns (rs.dropWhile (fun x => userOf x == userOf r)) := by
  rw [userRuns]

lemma runsStates_nil (d : ℕ) (dict : List (String × ℕ)) (n : ℕ) :
    runsStates d [] dict n = ([], dict, n) := rfl

lemma runsStates_cons (d : ℕ) (run : List (List String))
    (rest : List (List (List String))) (dict : List (String × ℕ)) (n : ℕ) :
    runsStates d (run :: rest) dict n
      = if runAttempts run = [] then runsStates d rest dict n
        else ((createUserState d (runAttempts run) dict n).1
              :: (runsStates d rest (createUserState d (runAttempts run) dict n).2.1
                  (createUserState d (runAttempts run) dict n).2.2).1,
              (runsStates d rest (createUserState d (runAttempts run) dict n).2.1
                  (createUserState d (runAttempts run) dict n).2.2).2) := by
  rw [runsStates]

/-- Characterization of a single ingestion replica from a state with an
empty attempts buffer: one user state is emitted per maximal same-user
contiguous block containing at least one problem-log row, built from exactly
that block's problem-log rows, threading the exercise dictionary in block
order. -/
lemma replica_char (d : ℕ) : ∀ (rows : List (List String)) (st : IngestSt),
    (∀ r ∈ rows, GoodRow r) → st.attempts = [] →
    ∃ st2, ingestReplica d rows st = Except.ok st2
      ∧ st2.userStates = st.userStates
          ++ (runsStates d (userRuns rows) st.dict st.nextInd).1
      ∧ st2.dict = (runsStates d (userRuns rows) st.dict st.nextInd).2.1
      ∧ st2.nextInd = (runsStates d (userRuns rows) st.dict st.nextInd).2.2
  | [], st => by
    intro _ hatt
    have hend : endFlush d st = st := by
      unfold endFlush
      rw [if_pos hatt]
    refine ⟨st, ?_, ?_, ?_, ?_⟩
    · unfold ingestReplica
      simp only [List.foldlM_nil]
      show Except.ok (endFlush d st) = Except.ok st
      rw [hend]
    · rw [userRuns_nil, runsStates_nil]
      simp
    · rw [userRuns_nil, runsStates_nil]
    · rw [userRuns_nil, runsStates_nil]
  | r :: rs, st => by
    intro hg hatt
    have hsplit : r :: rs
        = (r :: rs.takeWhile (fun x => userOf x == userOf r))
          ++ rs.dropWhile (fun x => userOf x == userOf r) := by
      rw [List.cons_append, List.takeWhile_append_dropWhile]
    have hgrun : ∀ x ∈ r :: rs.takeWhile (fun x => userOf x == userOf r),
        GoodRow x := by
      intro x hx
      rcases List.mem_cons.mp hx with rfl | hx2
      · exact hg x (by simp)
      · exact hg x (List.mem_cons_of_mem r (List.takeWhile_subset _ hx2))
    have huni : ∀ x ∈ r :: rs.takeWhile (fun x => userOf x == userOf r),
        userOf x = userOf r := by
      intro x hx
      rcases List.mem_cons.mp hx with rfl | hx2
      · rfl
      · have hb := List.mem_takeWhile_imp hx2
        simpa using hb
    have hrunstart := foldlM_run_start d (userOf r)
      (r :: rs.takeWhile (fun x => userOf x == userOf r)) st
      (by simp) hgrun huni hatt
    set st1 : IngestSt := { st with
      prevUser := some (userOf r)
      attempts := runAttempts
        (r :: rs.takeWhile (fun x => userOf x == userOf r)) } with hst1
    have hcomp : ingestReplica d (r :: rs) st
        = ingestReplica d (rs.dropWhile (fun x => userOf x == userOf r)) st1 := by
      conv_lhs => rw [hsplit]
      unfold ingestReplica
      rw [List.foldlM_append, hrunstart, bind_ok_eq]
    cases hrest : rs.dropWhile (fun x => userOf x == userOf r) with
    | nil =>
      rw [hrest] at hcomp
      by_cases hA : runAttempts
          (r :: rs.takeWhile (fun x => userOf x == userOf r)) = []
      · have hatt1 : st1.attempts = [] := by simp [hst1, hA]
        refine ⟨st1, ?_, ?_, ?_, ?_⟩
        · rw [hcomp]
          unfold ingestReplica
          simp only [List.foldlM_nil]
          show Except.ok (endFlush d st1) = Except.ok st1
          rw [show endFlush d st1 = st1 by unfold endFlush; rw [if_pos hatt1]]
        · rw [userRuns_cons, hrest, runsStates_cons, if_pos hA,
            userRuns_nil, runsStates_nil]
          simp [hst1]
        · rw [userRuns_cons, hrest, runsStates_cons, if_pos hA,
            userRuns_nil, runsStates_nil]
        · rw [userRuns_cons, hrest, runsStates_cons, if_pos hA,
            userRuns_nil, runsStates_nil]
      · have hatt1 : st1.attempts
            = runAttempts (r :: rs.takeWhile (fun x => userOf x == userOf r)) := by
          simp [hst1]
        refine ⟨endFlush d st1, ?_, ?_, ?_, ?_⟩
        · rw [hcomp]
          unfold ingestReplica
          simp only [List.foldlM_nil]
          rfl
        · rw [userRuns_cons, hrest, runsStates_cons, if_neg hA,
            userRuns_nil, runsStates_nil]
          unfold endFlush
          rw [if_neg (by rw [hatt1]; exact hA)]
        · rw [userRuns_cons, hrest, runsStates_cons, if_neg hA,
            userRuns_nil, runsStates_nil]
          unfold endFlush
          rw [if_neg (by rw [hatt1]; exact hA)]
        · rw [userRuns_cons, hrest, runsStates_cons, if_neg hA,
            userRuns_nil, runsStates_nil]
          unfold endFlush
          rw [if_neg (by rw [hatt1]; exact hA)]
    | cons r2 rest2 =>
      have hp2 : (userOf r2 == userOf r) = false :=
        dropWhile_head_false _ rs r2 rest2 hrest
      have hne2 : userOf r2 ≠ userOf r := by simpa using hp2
      rw [hrest] at hcomp
      have hgrest : ∀ x ∈ r2 :: rest2, GoodRow x := by
        intro x hx
        apply hg
        rw [hsplit, hrest]
        exact List.mem_append.mpr (Or.inr hx)
      by_cases hA : runAttempts
          (r :: rs.takeWhile (fun x => userOf x == userOf r)) = []
      · have hatt1 : st1.attempts = [] := by simp [hst1, hA]
        obtain ⟨st2, hok2, hu2, hd2, hn2⟩ :=
          replica_char d (r2 :: rest2) st1 hgrest hatt1
        refine ⟨st2, by rw [hcomp]; exact hok2, ?_, ?_, ?_⟩
        · rw [userRuns_cons, hrest, runsStates_cons, if_pos hA, hu2]
        · rw [userRuns_cons, hrest, runsStates_cons, if_pos hA, hd2]
        · rw [userRuns_cons, hrest, runsStates_cons, if_pos hA, hn2]
      · have hatt1ne : st1.attempts ≠ [] := by
          simpa [hst1] using hA
        have hprev1 : st1.prevUser = some (userOf r) := by simp [hst1]
        have hflush : processRow d st1 r2 = processRow d (flushSt d st1) r2 :=
          processRow_flush_pre d st1 r2
            ⟨by rw [hprev1]; simpa using hne2, hatt1ne⟩
        have hcomp2 : ingestReplica d (r2 :: rest2) st1
            = ingestReplica d (r2 :: rest2) (flushSt d st1) := by
          unfold ingestReplica
          rw [List.foldlM_cons, hflush, ← List.foldlM_cons]
        have hattF : (flushSt d st1).attempts = [] := rfl
        obtain ⟨st2, hok2, hu2, hd2, hn2⟩ :=
          replica_char d (r2 :: rest2) (flushSt d st1) hgrest hattF
        refine ⟨st2, by rw [hcomp, hcomp2]; exact hok2, ?_, ?_, ?_⟩
        · rw [userRuns_cons, hrest, runsStates_cons, if_neg hA, hu2]
          simp [hst1, flushSt]
        · rw [userRuns_cons, hrest, runsStates_cons, if_neg hA, hd2]
          simp [hst1, flushSt]
        · rw [userRuns_cons, hrest, runsStates_cons, if_neg hA, hn2]
          simp [hst1, flushSt]
termination_by rows => rows.length
decreasing_by
  all_goals
    (simp only [List.length_cons]
     have hle := length_dropWhile_le (fun x => userOf x == userOf r) rs
     rw [hrest] at hle
     simp only [List.length_cons] at hle
     omega)

lemma foldlM_ok_good (d : ℕ) : ∀ (rows : List (List String)) (st st2 : IngestSt),
    rows.foldlM (processRow d) st = Except.ok st2 → ∀ r ∈ rows, GoodRow r := by
  intro rows
  induction rows with
  | nil => intro st st2 _ r hr; simp at hr
  | cons x xs ih =>
    intro st st2 h r hr
    rw [List.foldlM_cons] at h
    cases hp : processRow d st x with
    | error e => rw [hp, bind_err_eq] at h; exact absurd h (by simp)
    | ok mid =>
      rw [hp, bind_ok_eq] at h
      rcases List.mem_cons.mp hr with rfl | hr2
      · exact processRow_ok_good hp
      · exact ih mid st2 h r hr2

lemma ingest_one_ok_good (d : ℕ) (rows : List (List String)) (st : IngestSt)
    (h : ingest d rows 1 = Except.ok st) : ∀ r ∈ rows, GoodRow r := by
  unfold ingest ingestIter ingestReplica at h
  cases hf : rows.foldlM (processRow d) initIngestSt with
  | error e =>
    rw [hf, bind_err_eq, bind_err_eq] at h
    exact absurd h (by simp)
  | ok mid => exact foldlM_ok_good d rows _ mid hf

lemma runAttempts_eq_nil_iff (run : List (List String)) :
    runAttempts run = [] ↔ run.any (fun r => isPlogRow r) = false := by
  induction run with
  | nil => simp [runAttempts_nil]
  | cons r rest ih =>
    rw [runAttempts_cons, List.any_cons]
    cases h : isPlogRow r
    · simp [ih]
    · simp

lemma runsStates_count (d : ℕ) : ∀ (runs : List (List (List String)))
    (dict : List (String × ℕ)) (n : ℕ),
    (runsStates d runs dict n).1.length
      = (runs.filter (fun run => run.any (fun r => isPlogRow r))).length := by
  intro runs
  induction runs with
  | nil => intro dict n; simp [runsStates_nil]
  | cons run rest ih =>
    intro dict n
    rw [runsStates_cons, List.filter_cons]
    by_cases hA : runAttempts run = []
    · rw [if_pos hA]
      have hany : run.any (fun r => isPlogRow r) = false :=
        (runAttempts_eq_nil_iff run).mp hA
      rw [hany]
      simp only [Bool.false_eq_true, if_neg (by simp : ¬ false = true)]
      exact ih dict n
    · rw [if_neg hA]
      have hany : run.any (fun r => isPlogRow r) = true := by
        rcases h2 : run.any (fun r => isPlogRow r) with _ | _
        · exact absurd ((runAttempts_eq_nil_iff run).mpr h2) hA
        · rfl
      rw [hany]
      simp [ih]

/-- C9 (amended, single replica): ingestion closes the current user state
exactly when it sees a record whose user identifier differs from the previous
record's, so the produced user states correspond one-to-one with the maximal
same-user contiguous blocks that contain at least one problem-attempt record;
blocks with no problem-attempt records produce no state, so a user whose
records are split across several blocks yields one state per block with
attempts, not one per block. -/
theorem c9_contiguity (d : ℕ) (rows : List (List String)) (st : IngestSt)
    (hok : ingest d rows 1 = Except.ok st) :
    st.userStates = (runsStates d (userRuns rows) [] 0).1
    ∧ st.userStates.length
      = ((userRuns rows).filter
          (fun run => run.any (fun r => isPlogRow r))).length := by
  have hgood := ingest_one_ok_good d rows st hok
  obtain ⟨st2, hok2, hu2, hd2, hn2⟩ :=
    replica_char d rows initIngestSt hgood (by rfl)
  have hok3 : ingest d rows 1 = Except.ok st2 := by
    rw [show ingest d rows 1
      = (ingestReplica d rows initIngestSt)
          >>= (fun s => ingestIter d rows 0 s) from rfl]
    rw [hok2, bind_ok_eq]
    rfl
  have hst : st = st2 := Except.ok.inj (hok.symm.trans hok3)
  subst hst
  constructor
  · rw [hu2]
    rfl
  · rw [hu2]
    exact runsStates_count d (userRuns rows) [] 0

/-- First row of the C9 witness input. -/
def rowC9a : List String :=
  [sUserA, plogTag, sEx1, trueTag, trueTag, sOne, sOne, sZero, sOnePointZero]

/-- Second row of the C9 witness input. -/
def rowC9b : List String :=
  [sUserB, plogTag, sEx2, trueTag, trueTag, sOne, sOne, sZero, sOnePointZero]

/-- The ingestion state after the C9 witness input. -/
def stC9w : IngestSt :=
  ⟨[⟨[1], [0], [0]⟩, ⟨[1], [1], [0]⟩], [(sEx1, 0), (sEx2, 1)], 2,
   some sUserB, [⟨true, sEx2⟩]⟩

theorem c9_witness :
    (ingest 1 [rowC9a, rowC9b] 1 = Except.ok stC9w) ∧
    (stC9w.userStates = (runsStates 1 (userRuns [rowC9a, rowC9b]) [] 0).1
      ∧ stC9w.userStates.length
        = ((userRuns [rowC9a, rowC9b]).filter
            (fun run => run.any (fun r => isPlogRow r))).length) :=
  ⟨by rfl, c9_contiguity 1 [rowC9a, rowC9b] stC9w (by rfl)⟩

/-- A's problem-log row for the C9 counterexample. -/
def raC9 : List String :=
  [sUserA, plogTag, sEx1, trueTag, trueTag, sOne, sOne, sZero, sOnePointZero]

/-- B's problem-log row for the C9 counterexample. -/
def rbC9 : List String :=
  [sUserB, plogTag, sEx2, trueTag, trueTag, sOne, sOne, sZero, sOnePointZero]

/-- A's later non-problem-log row for the C9 counterexample. -/
def ranC9 : List String := [sUserA, sOther]

/-- C9 counterexample: user A's records are non-contiguous (rows 1 and 3,
with B's row between), giving 3 contiguous user blocks, yet ingestion
produces only 2 user states — A's second block contains no problem-attempt
record and silently yields no state, contradicting "multiple disjoint user
states (one per contiguous block)". -/
theorem c9_counterexample :
    (ingest 1 [raC9, rbC9, ranC9] 1).map (fun st => st.userStates.length)
      = Except.ok 2
    ∧ (userRuns [raC9, rbC9, ranC9]).length = 3
    ∧ (2 : ℕ) ≠ 3 := by
  refine ⟨by rfl, ?_, by decide⟩
  have h1 : (userOf rbC9 == userOf raC9) = false := by rfl
  have h2 : (userOf ranC9 == userOf rbC9) = false := by rfl
  rw [userRuns_cons]
  rw [show ([rbC9, ranC9].takeWhile (fun x => userOf x == userOf raC9)) = []
    by rw [List.takeWhile_cons, h1]; rfl]
  rw [show ([rbC9, ranC9].dropWhile (fun x => userOf x == userOf raC9))
      = [rbC9, ranC9]
    by rw [List.dropWhile_cons, h1]; rfl]
  rw [userRuns_cons]
  rw [show ([ranC9].takeWhile (fun x => userOf x == userOf rbC9)) = []
    by rw [List.takeWhile_cons, h2]; rfl]
  rw [show ([ranC9].dropWhile (fun x => userOf x == userOf rbC9)) = [ranC9]
    by rw [List.dropWhile_cons, h2]; rfl]
  rw [userRuns_cons]
  rw [show (([] : List (List String)).takeWhile
      (fun x => userOf x == userOf ranC9)) = [] from rfl]
  rw [show (([] : List (List String)).dropWhile
      (fun x => userOf x == userOf ranC9)) = [] from rfl]
  rw [userRuns_nil]
  rfl

lemma userRuns_three (a b c : List String)
    (h1 : (userOf b == userOf a) = false)
    (h2 : (userOf c == userOf b) = false) :
    userRuns [a, b, c] = [[a], [b], [c]] := by
  rw [userRuns_cons]
  rw [show ([b, c].takeWhile (fun x => userOf x == userOf a)) = []
    by rw [List.takeWhile_cons, h1]; rfl]
  rw [show ([b, c].dropWhile (fun x => userOf x == userOf a)) = [b, c]
    by rw [List.dropWhile_cons, h1]; rfl]
  rw [userRuns_cons]
  rw [show ([c].takeWhile (fun x => userOf x == userOf b)) = []
    by rw [List.takeWhile_cons, h2]; rfl]
  rw [show ([c].dropWhile (fun x => userOf x == userOf b)) = [c]
    by rw [List.dropWhile_cons, h2]; rfl]
  rw [userRuns_cons]
  rw [show (([] : List (List String)).takeWhile
      (fun x => userOf x == userOf c)) = [] from rfl]
  rw [show (([] : List (List String)).dropWhile
      (fun x => userOf x == userOf c)) = [] from rfl]
  rw [userRuns_nil]

/-- C10: the user-change check runs on every record before the row-type
filter and the previous-user tracker is updated by records of every row
type, so a single record of a different user — even of a non-retained row
type — between a user's problem-attempt records splits those attempts into
two separate user states, one per attempt here. -/
theorem c10_row_filter_order (d : ℕ) (ra1 rb ra2 : List String)
    (hg1 : GoodRow ra1) (hp1 : isPlogRow ra1 = true)
    (hgb : GoodRow rb) (hpb : isPlogRow rb = false)
    (hg2 : GoodRow ra2) (hp2 : isPlogRow ra2 = true)
    (hub : (userOf rb == userOf ra1) = false)
    (hua : (userOf ra2 == userOf rb) = false) :
    (ingest d [ra1, rb, ra2] 1).map
        (fun st => st.userStates.map (fun us => us.correct))
      = Except.ok
          [[if ra1.getD idxCorrect emptyStr == trueTag then (1 : ℝ) else 0],
           [if ra2.getD idxCorrect emptyStr == trueTag then (1 : ℝ) else 0]] := by
  have hgood : ∀ r ∈ [ra1, rb, ra2], GoodRow r := by
    intro r hr
    simp only [List.mem_cons, List.not_mem_nil, or_false] at hr
    rcases hr with rfl | rfl | rfl
    · exact hg1
    · exact hgb
    · exact hg2
  obtain ⟨st2, hok2, hu2, _, _⟩ :=
    replica_char d [ra1, rb, ra2] initIngestSt hgood (by rfl)
  have hok3 : ingest d [ra1, rb, ra2] 1 = Except.ok st2 := by
    rw [show ingest d [ra1, rb, ra2] 1
      = (ingestReplica d [ra1, rb, ra2] initIngestSt)
          >>= (fun s => ingestIter d [ra1, rb, ra2] 0 s) from rfl]
    rw [hok2, bind_ok_eq]
    rfl
  rw [hok3]
  show Except.ok (st2.userStates.map (fun us => us.correct)) = _
  rw [hu2, userRuns_three ra1 rb ra2 hub hua]
  have hA1 : runAttempts [ra1] = [attemptOfRow ra1] := by
    rw [runAttempts_cons, hp1, runAttempts_nil]
    simp
  have hAb : runAttempts [rb] = [] := by
    rw [runAttempts_cons, hpb, runAttempts_nil]
    simp
  have hA2 : runAttempts [ra2] = [attemptOfRow ra2] := by
    rw [runAttempts_cons, hp2, runAttempts_nil]
    simp
  rw [runsStates_cons, hA1]
  rw [if_neg (by simp : ¬ ([attemptOfRow ra1] : List Attempt) = [])]
  rw [runsStates_cons, hAb, if_pos rfl]
  rw [runsStates_cons, hA2]
  rw [if_neg (by simp : ¬ ([attemptOfRow ra2] : List Attempt) = [])]
  rw [runsStates_nil]
  rfl

/-- First row of the C10 witness input (user A, problem log). -/
def rowC10a : List String :=
  [sUserA, plogTag, sEx1, trueTag, trueTag, sOne, sOne, sZero, sOnePointZero]

/-- Second row of the C10 witness input (user B, non-retained row type). -/
def rowC10b : List String := [sUserB, sOther]

/-- Third row of the C10 witness input (user A again, problem log). -/
def rowC10c : List String :=
  [sUserA, plogTag, sEx1, trueTag, trueTag, sOne, sOne, sZero, sOnePointZero]

theorem c10_witness :
    (GoodRow rowC10a ∧ isPlogRow rowC10a = true ∧ GoodRow rowC10b
      ∧ isPlogRow rowC10b = false ∧ GoodRow rowC10c ∧ isPlogRow rowC10c = true
      ∧ (userOf rowC10b == userOf rowC10a) = false
      ∧ (userOf rowC10c == userOf rowC10b) = false) ∧
    (ingest 1 [rowC10a, rowC10b, rowC10c] 1).map
        (fun st => st.userStates.map (fun us => us.correct))
      = Except.ok
          [[if rowC10a.getD idxCorrect emptyStr == trueTag then (1 : ℝ) else 0],
           [if rowC10c.getD idxCorrect emptyStr == trueTag then (1 : ℝ) else 0]] :=
  ⟨⟨by decide, by rfl, by decide, by rfl, by decide, by rfl, by rfl, by rfl⟩,
   c10_row_filter_order 1 rowC10a rowC10b rowC10c (by decide) (by rfl)
     (by decide) (by rfl) (by decide) (by rfl) (by rfl) (by rfl)⟩

end Mirt
